import Mathlib

/-!
# Distance Vector Routing simulation: shallow embedding and verification

This file embeds the Python program of the repository (a synchronous
Distance Vector Routing simulator, file routing_protocol.py) into Lean and
proves the properties stated in its specification.

Modelling conventions:
* A Python dict is an association list in insertion order; assignment to an
  existing key rewrites in place, assignment to a fresh key appends.
* A routing cost is an `Option Nat`: `some c` is the finite cost `c`,
  `none` is the float value +infinity used by the program.
* Python code that can raise (a dict lookup with a missing key) is embedded
  in `Option`: `none` is the raised `KeyError`.
* `copy.deepcopy` on a table value is the identity on the embedded value.
* The `while True` convergence loop is embedded with explicit fuel; the
  termination theorem shows some fuel always suffices.
-/

/-- A node identifier (the Python program uses one-character strings). -/
abbrev NodeId := String

/-- A routing cost: `some c` is finite cost `c`, `none` is +infinity. -/
abbrev Cost := Option Nat

/-- A next hop: `some h` is the neighbor `h`, `none` is the Python value None. -/
abbrev Hop := Option NodeId

/-- A routing-table entry: (cost, next hop). -/
abbrev TblEntry := Cost × Hop

/-- A routing table: Python dict destination -> (cost, next hop). -/
abbrev Table := List (NodeId × TblEntry)

/-- A neighbor-link dict: Python dict neighbor -> link cost. -/
abbrev LinkMap := List (NodeId × Nat)

/-- Dict read: first entry with the given key, `none` when the key is absent
(Python raises KeyError / `.get` returns the default in that case). -/
def dget {α : Type} : List (NodeId × α) → NodeId → Option α
  | [], _ => none
  | (k, v) :: rest, d => if k = d then some v else dget rest d

/-- Dict write: rewrite the first entry with the given key in place, or append
a fresh entry at the end (Python dict insertion order). -/
def dset {α : Type} : List (NodeId × α) → NodeId → α → List (NodeId × α)
  | [], d, v => [(d, v)]
  | (k, v0) :: rest, d, v =>
    if k = d then (k, v) :: rest else (k, v0) :: dset rest d v

/-- Addition of a finite link cost and an advertised cost:
infinity stays infinity (Python float arithmetic with inf). -/
def addC (w : Nat) : Cost → Cost
  | none => none
  | some c => some (w + c)

/-- Strict comparison of costs, as the Python comparison new_cost < current_cost
behaves on numbers and float inf: inf is greater than every finite value and
not less than itself. -/
def bltC : Cost → Cost → Bool
  | none, _ => false
  | some _, none => true
  | some a, some b => decide (a < b)

/-- Non-strict comparison of costs (infinity is the top element). -/
def cleC : Cost → Cost → Bool
  | _, none => true
  | none, some _ => false
  | some a, some b => decide (a ≤ b)

/-- Minimum of two costs (infinity is the neutral element). -/
def cmin : Cost → Cost → Cost
  | none, y => y
  | some a, none => some a
  | some a, some b => some (min a b)

/-- A node of the network: its name, its neighbor-link dict and its routing
table, exactly the attributes of the Python class Node. -/
structure Node where
  name : NodeId
  neighbors : LinkMap
  routing_table : Table
deriving DecidableEq

/-- Node.add_neighbor: register a link and seed the routing table with the
direct entry (cost, neighbor). -/
def Node.add_neighbor (self : Node) (neighbor : NodeId) (cost : Nat) : Node :=
  { self with
    neighbors := dset self.neighbors neighbor cost
    routing_table := dset self.routing_table neighbor (some cost, some neighbor) }

/-- The loop body of Node.initialize_routing_table: give one known node
without an entry the entry (inf, None). -/
def initStep (nm : NodeId) (t : Table) (node : NodeId) : Table :=
  if node ≠ nm ∧ dget t node = none then dset t node (none, none) else t

/-- Node.initialize_routing_table: give every other known node without an
entry the entry (inf, None), then force the self entry to (0, self). -/
def Node.initialize_routing_table (self : Node) (all_nodes : List NodeId) : Node :=
  let t := all_nodes.foldl (initStep self.name) self.routing_table
  { self with routing_table := dset t self.name (some 0, some self.name) }

/-- Node.send_routing_table: return a deep copy of the routing table.  On the
embedded immutable value a deep copy is the value itself; the independence of
the copy from later mutation is proved below (claim C7). -/
def Node.send_routing_table (self : Node) : Table :=
  self.routing_table

/-- One iteration of the loop body of Node.update_routing_table, processing a
single (destination, (cost, next hop)) item of the received table against the
accumulated (routing table, updated flag). -/
def relaxStep (selfName neighbor : NodeId) (cost_to_neighbor : Nat)
    (acc : Table × Bool) (item : NodeId × TblEntry) : Table × Bool :=
  let destination := item.1
  let neighbor_cost := item.2.1
  if destination = selfName then acc
  else
    let new_cost := addC cost_to_neighbor neighbor_cost
    let current := (dget acc.1 destination).getD (none, none)
    if bltC new_cost current.1 then
      (dset acc.1 destination (new_cost, some neighbor), true)
    else acc

/-- Node.update_routing_table: Bellman-Ford relaxation of the own table
against a neighbor's table.  The initial dict access self.neighbors[neighbor]
raises KeyError for a non-neighbor, embedded as `none`; otherwise the call
returns the new node state and whether any entry changed. -/
def Node.update_routing_table (self : Node) (neighbor : NodeId)
    (neighbor_table : Table) : Option (Node × Bool) :=
  match dget self.neighbors neighbor with
  | none => none
  | some cost_to_neighbor =>
    let result := neighbor_table.foldl
      (relaxStep self.name neighbor cost_to_neighbor) (self.routing_table, false)
    some ({ self with routing_table := result.1 }, result.2)

/-- The network: Python dict node name -> Node. -/
structure Network where
  nodes : List (NodeId × Node)
deriving DecidableEq

/-- Network.add_node: add a fresh node when the name is not present. -/
def Network.add_node (self : Network) (node_name : NodeId) : Network :=
  if dget self.nodes node_name = none then
    { nodes := self.nodes ++ [(node_name, Node.mk node_name [] [])] }
  else self

/-- Network.add_link: create the two endpoints when absent, then register the
link on both of them (both dict accesses succeed because add_node just ran;
the unreachable missing-key case leaves the dict unchanged). -/
def Network.add_link (self : Network) (node1 node2 : NodeId) (cost : Nat) : Network :=
  let net := (self.add_node node1).add_node node2
  let net : Network :=
    { nodes :=
        match dget net.nodes node1 with
        | some n => dset net.nodes node1 (n.add_neighbor node2 cost)
        | none => net.nodes }
  { nodes :=
      match dget net.nodes node2 with
      | some n => dset net.nodes node2 (n.add_neighbor node1 cost)
      | none => net.nodes }

/-- The list of node names, in dict insertion order (self.nodes.keys()). -/
def Network.names (self : Network) : List NodeId :=
  self.nodes.map Prod.fst

/-- Network.initialize_routing_tables: initialize every node's table with the
full name list. -/
def Network.initialize_routing_tables (self : Network) : Network :=
  let all_nodes := self.names
  { nodes := self.nodes.map (fun p => (p.1, p.2.initialize_routing_table all_nodes)) }

/-- Step 1 of a round: the dict {node.name: node.send_routing_table()} of
simultaneously exported snapshots. -/
def Network.sent_tables (self : Network) : List (NodeId × Table) :=
  self.nodes.map (fun p => (p.2.name, p.2.send_routing_table))

/-- One neighbor of the inner loop of step 2 of a round: look the neighbor's
snapshot up and relax against it, ORing the change flag.  A missing snapshot
or a failing update aborts (Python KeyError). -/
def relaxNodeStep (snaps : List (NodeId × Table)) (acc : Option (Node × Bool))
    (p : NodeId × Nat) : Option (Node × Bool) :=
  match acc with
  | none => none
  | some (n, b) =>
    match dget snaps p.1 with
    | none => none
    | some neighbor_table =>
      match n.update_routing_table p.1 neighbor_table with
      | none => none
      | some (n', b') => some (n', b || b')

/-- The inner loop of step 2 of a round for one node: relax against every
neighbor's snapshot in order. -/
def relaxNode (snaps : List (NodeId × Table)) (node : Node) : Option (Node × Bool) :=
  node.neighbors.foldl (relaxNodeStep snaps) (some (node, false))

/-- Step 2 of a round over a list of nodes: each node relaxes against the
snapshots; the per-node change flags are ORed into the round flag. -/
def roundNodes (snaps : List (NodeId × Table)) :
    List (NodeId × Node) → Option (List (NodeId × Node) × Bool)
  | [] => some ([], false)
  | p :: rest =>
    match relaxNode snaps p.2 with
    | none => none
    | some (n', b1) =>
      match roundNodes snaps rest with
      | none => none
      | some (rest', b2) => some ((p.1, n') :: rest', b1 || b2)

/-- One full round of the convergence loop: collect all snapshots, then let
every node relax against its neighbors' snapshots; returns the new network
and whether any table changed. -/
def Network.round (self : Network) : Option (Network × Bool) :=
  match roundNodes self.sent_tables self.nodes with
  | none => none
  | some (ns, b) => some ({ nodes := ns }, b)

/-- The while-True convergence loop with explicit fuel: run a round; stop and
return the state when nothing changed, iterate otherwise.  `none` means the
fuel ran out (or a round failed). -/
def dvrLoop : Nat → Network → Option Network
  | 0, _ => none
  | fuel + 1, net =>
    match net.round with
    | none => none
    | some (net', updated) => if updated then dvrLoop fuel net' else some net'

/-- Network.distance_vector_routing: initialize all routing tables, then loop
rounds until a round changes nothing. -/
def Network.distance_vector_routing (self : Network) (fuel : Nat) : Option Network :=
  dvrLoop fuel self.initialize_routing_tables

/-- The routing table of the named node ([] when the name is unknown). -/
def Network.tableOf (self : Network) (k : NodeId) : Table :=
  match dget self.nodes k with
  | some n => n.routing_table
  | none => []

/-- The entry of node A for destination d, with the missing-entry default
(inf, None) used by the program. -/
def Network.entryAt (self : Network) (A d : NodeId) : TblEntry :=
  (dget (self.tableOf A) d).getD (none, none)

/-- The cost recorded by node A for destination d. -/
def Network.costAt (self : Network) (A d : NodeId) : Cost :=
  (self.entryAt A d).1

/-- The neighbor-link dict of the named node ([] when the name is unknown). -/
def Network.adjOf (self : Network) (k : NodeId) : LinkMap :=
  match dget self.nodes k with
  | some n => n.neighbors
  | none => []

/-! ## Dictionary lemmas -/

theorem dget_dset_self {α : Type} (t : List (NodeId × α)) (d : NodeId) (v : α) :
    dget (dset t d v) d = some v := by
  induction t with
  | nil => simp [dget, dset]
  | cons p rest ih =>
    by_cases h : p.1 = d
    · simp [dget, dset, h]
    · simp [dget, dset, h, ih]

theorem dget_dset_ne {α : Type} (t : List (NodeId × α)) (k d : NodeId) (v : α)
    (h : k ≠ d) : dget (dset t k v) d = dget t d := by
  induction t with
  | nil => simp [dget, dset, h]
  | cons p rest ih =>
    by_cases hp : p.1 = k
    · simp only [dset, hp, if_pos rfl, dget]
      rw [if_neg (hp ▸ h), if_neg (hp ▸ h)]
    · simp only [dset, if_neg hp, dget]
      by_cases hd : p.1 = d
      · rw [if_pos hd, if_pos hd]
      · rw [if_neg hd, if_neg hd, ih]

theorem dget_mem {α : Type} {t : List (NodeId × α)} {k : NodeId} {v : α}
    (h : dget t k = some v) : (k, v) ∈ t := by
  induction t with
  | nil => simp [dget] at h
  | cons p rest ih =>
    by_cases hp : p.1 = k
    · simp only [dget, if_pos hp] at h
      cases p with
      | mk pk pv =>
        simp only [Option.some.injEq] at h
        subst h
        simp at hp
        subst hp
        exact List.mem_cons_self _ _
    · simp only [dget, if_neg hp] at h
      exact List.mem_cons_of_mem _ (ih h)

theorem dget_isSome_iff {α : Type} (t : List (NodeId × α)) (k : NodeId) :
    (dget t k).isSome ↔ k ∈ t.map Prod.fst := by
  induction t with
  | nil => simp [dget]
  | cons p rest ih =>
    by_cases hp : p.1 = k
    · simp [dget, hp]
    · simp only [dget, if_neg hp, List.map_cons, List.mem_cons, ih]
      constructor
      · exact Or.inr
      · rintro (h | h)
        · exact absurd h.symm hp
        · exact h

theorem dget_eq_none_iff {α : Type} (t : List (NodeId × α)) (k : NodeId) :
    dget t k = none ↔ k ∉ t.map Prod.fst := by
  rw [← dget_isSome_iff, Option.isSome_iff_exists]
  cases dget t k <;> simp

theorem dget_of_mem_nodup {α : Type} {t : List (NodeId × α)} {k : NodeId} {v : α}
    (hnd : (t.map Prod.fst).Nodup) (h : (k, v) ∈ t) : dget t k = some v := by
  induction t with
  | nil => simp at h
  | cons p rest ih =>
    simp only [List.map_cons, List.nodup_cons] at hnd
    rcases List.mem_cons.mp h with h | h
    · subst h
      simp [dget]
    · have hk : k ∈ rest.map Prod.fst := List.mem_map.mpr ⟨(k, v), h, rfl⟩
      have hp : p.1 ≠ k := fun e => hnd.1 (e ▸ hk)
      simp only [dget, if_neg hp]
      exact ih hnd.2 h

theorem keys_dset_isSome {α : Type} (t : List (NodeId × α)) (d : NodeId) (v : α)
    (h : (dget t d).isSome) : (dset t d v).map Prod.fst = t.map Prod.fst := by
  induction t with
  | nil => simp [dget] at h
  | cons p rest ih =>
    by_cases hp : p.1 = d
    · simp [dset, hp]
    · simp only [dget, if_neg hp] at h
      simp [dset, hp, ih h]

theorem keys_dset_none {α : Type} (t : List (NodeId × α)) (d : NodeId) (v : α)
    (h : dget t d = none) : (dset t d v).map Prod.fst = t.map Prod.fst ++ [d] := by
  induction t with
  | nil => simp [dset]
  | cons p rest ih =>
    by_cases hp : p.1 = d
    · simp [dget, hp] at h
    · simp only [dget, if_neg hp] at h
      simp [dset, hp, ih h]

theorem nodup_keys_dset {α : Type} (t : List (NodeId × α)) (d : NodeId) (v : α)
    (hnd : (t.map Prod.fst).Nodup) : ((dset t d v).map Prod.fst).Nodup := by
  cases h : dget t d with
  | some w => rw [keys_dset_isSome t d v (by simp [h])]; exact hnd
  | none =>
    rw [keys_dset_none t d v h]
    have hd : d ∉ t.map Prod.fst := (dget_eq_none_iff t d).mp h
    simp [List.nodup_append, hnd, hd]

/-! ## Cost-order lemmas -/

theorem cleC_refl (x : Cost) : cleC x x = true := by
  cases x <;> simp [cleC]

theorem cleC_none_right (x : Cost) : cleC x none = true := by
  cases x <;> simp [cleC]

theorem cleC_none_left {x : Cost} (h : cleC none x = true) : x = none := by
  cases x <;> simp [cleC] at h ⊢

theorem bltC_irrefl (x : Cost) : bltC x x = false := by
  cases x <;> simp [bltC]

theorem cleC_of_bltC {x y : Cost} (h : bltC x y = true) : cleC x y = true := by
  cases x <;> cases y <;> simp [bltC, cleC] at h ⊢ <;> omega

theorem cleC_of_not_bltC {x y : Cost} (h : bltC x y = false) : cleC y x = true := by
  cases x <;> cases y <;> simp [bltC, cleC] at h ⊢ <;> omega

theorem cleC_trans {x y z : Cost} (h1 : cleC x y = true) (h2 : cleC y z = true) :
    cleC x z = true := by
  cases x <;> cases y <;> cases z <;> simp [cleC] at h1 h2 ⊢ <;> omega

theorem bltC_of_cleC_bltC_cleC {a b c d : Cost} (h1 : cleC a b = true)
    (h2 : bltC b c = true) (h3 : cleC c d = true) : bltC a d = true := by
  cases a <;> cases b <;> cases c <;> cases d <;>
    simp [cleC, bltC] at h1 h2 h3 ⊢ <;> omega

theorem cleC_antisymm {x y : Cost} (h1 : cleC x y = true) (h2 : cleC y x = true) :
    x = y := by
  cases x <;> cases y <;> simp [cleC] at h1 h2 ⊢ <;> omega

theorem cleC_zero_left (x : Cost) : cleC (some 0) x = true := by
  cases x <;> simp [cleC]

theorem addC_mono (w : Nat) {x y : Cost} (h : cleC x y = true) :
    cleC (addC w x) (addC w y) = true := by
  cases x <;> cases y <;> simp [cleC, addC] at h ⊢ <;> omega

theorem cleC_cmin_iff (x a b : Cost) :
    cleC x (cmin a b) = true ↔ cleC x a = true ∧ cleC x b = true := by
  cases x <;> cases a <;> cases b <;> simp [cleC, cmin] <;> omega

theorem cmin_le_left (a b : Cost) : cleC (cmin a b) a = true := by
  cases a <;> cases b <;> simp [cleC, cmin] <;> omega

theorem cmin_le_right (a b : Cost) : cleC (cmin a b) b = true := by
  cases a <;> cases b <;> simp [cleC, cmin]

theorem cmin_cases (a b : Cost) : cmin a b = a ∨ cmin a b = b := by
  cases a <;> cases b <;> simp [cmin]
  rename_i a b
  rcases Nat.le_total a b with h | h
  · left; omega
  · right; omega

theorem cmin_zero_left (y : Cost) : cmin (some 0) y = some 0 := by
  cases y <;> simp [cmin]

/-! ## Characterization of the relaxation fold of Node.update_routing_table -/

/-- The cost recorded in a table for a destination, with the program's
missing-entry default (inf, None). -/
def tcost (t : Table) (d : NodeId) : Cost :=
  ((dget t d).getD (none, none)).1

/-- Whether one received item would strictly improve the table t (the guard
of the write in the loop of Node.update_routing_table). -/
def improves (nm : NodeId) (w : Nat) (t : Table) (q : NodeId × TblEntry) : Bool :=
  if q.1 = nm then false else bltC (addC w q.2.1) (tcost t q.1)

theorem relaxStep_eq (nm nb : NodeId) (w : Nat) (acc : Table × Bool)
    (item : NodeId × TblEntry) :
    relaxStep nm nb w acc item =
      if item.1 = nm then acc
      else if bltC (addC w item.2.1) (tcost acc.1 item.1) then
        (dset acc.1 item.1 (addC w item.2.1, some nb), true)
      else acc := rfl

/-- The incoming flag does not influence the produced table, and is ORed into
the produced flag. -/
theorem relaxFold_flag (nm nb : NodeId) (w : Nat) (items : List (NodeId × TblEntry))
    (t : Table) (b : Bool) :
    items.foldl (relaxStep nm nb w) (t, b) =
      ((items.foldl (relaxStep nm nb w) (t, false)).1,
        b || (items.foldl (relaxStep nm nb w) (t, false)).2) := by
  induction items generalizing t b with
  | nil => simp
  | cons q rest ih =>
    simp only [List.foldl_cons, relaxStep_eq]
    by_cases h1 : q.1 = nm
    · simp only [if_pos h1]
      exact ih t b
    · simp only [if_neg h1]
      by_cases h2 : bltC (addC w q.2.1) (tcost t q.1) = true
      · simp only [if_pos h2]
        rw [ih _ true]
        simp
      · simp only [if_neg h2]
        exact ih t b

/-- The table entry the fold never touches: the one for the node itself. -/
theorem relaxFold_self (nm nb : NodeId) (w : Nat) (items : List (NodeId × TblEntry))
    (t : Table) :
    dget (items.foldl (relaxStep nm nb w) (t, false)).1 nm = dget t nm := by
  induction items generalizing t with
  | nil => simp
  | cons q rest ih =>
    simp only [List.foldl_cons, relaxStep_eq]
    by_cases h1 : q.1 = nm
    · simp only [if_pos h1]
      exact ih t
    · simp only [if_neg h1]
      by_cases h2 : bltC (addC w q.2.1) (tcost t q.1) = true
      · simp only [if_pos h2]
        rw [relaxFold_flag, ih]
        exact dget_dset_ne t q.1 nm _ h1
      · simp only [if_neg h2]
        exact ih t

/-- Pointwise characterization of the fold of Node.update_routing_table on a
received table with unique keys (a Python dict always has unique keys): every
destination is either left alone (absent from the received table, the node
itself, or no strict improvement) or overwritten with the relaxed entry. -/
theorem relaxFold_dget (nm nb : NodeId) (w : Nat) (items : List (NodeId × TblEntry))
    (hnd : (items.map Prod.fst).Nodup) (t : Table) (d : NodeId) :
    dget (items.foldl (relaxStep nm nb w) (t, false)).1 d =
      match dget items d with
      | none => dget t d
      | some e =>
        if d = nm then dget t d
        else if bltC (addC w e.1) (tcost t d) then
          some (addC w e.1, some nb)
        else dget t d := by
  induction items generalizing t with
  | nil => simp [dget]
  | cons q rest ih =>
    simp only [List.map_cons, List.nodup_cons] at hnd
    simp only [List.foldl_cons, relaxStep_eq]
    by_cases hqd : q.1 = d
    · -- the head item concerns destination d; the rest never mentions d again
      have hrest : dget rest d = none := by
        rw [dget_eq_none_iff]
        exact fun hmem => hnd.1 (hqd ▸ hmem)
      simp only [dget, if_pos hqd, hrest]
      by_cases h1 : q.1 = nm
      · simp only [if_pos h1]
        rw [ih hnd.2 t, hrest]
        have : d = nm := hqd ▸ h1
        simp [this]
      · have hdnm : ¬ d = nm := fun e => h1 (hqd.trans e)
        simp only [if_neg h1, if_neg hdnm, hqd]
        by_cases h2 : bltC (addC w q.2.1) (tcost t d) = true
        · simp only [if_pos h2]
          rw [relaxFold_flag, ih hnd.2, hrest]
          exact dget_dset_self t d _
        · simp only [if_neg h2]
          rw [ih hnd.2 t, hrest]
    · -- the head item concerns another destination
      have hitems : dget (q :: rest) d = dget rest d := by
        simp [dget, hqd]
      rw [hitems]
      by_cases h1 : q.1 = nm
      · simp only [if_pos h1]
        exact ih hnd.2 t
      · simp only [if_neg h1]
        by_cases h2 : bltC (addC w q.2.1) (tcost t q.1) = true
        · simp only [if_pos h2]
          rw [relaxFold_flag, ih hnd.2]
          have hd : dget (dset t q.1 (addC w q.2.1, some nb)) d = dget t d :=
            dget_dset_ne t q.1 d _ hqd
          have htc : tcost (dset t q.1 (addC w q.2.1, some nb)) d = tcost t d := by
            unfold tcost; rw [hd]
          cases hr : dget rest d with
          | none => simpa using hd
          | some e => simp only [htc, hd]
        · simp only [if_neg h2]
          exact ih hnd.2 t

/-- Characterization, absent-key form. -/
theorem relaxFold_dget_absent (nm nb : NodeId) (w : Nat)
    (items : List (NodeId × TblEntry)) (hnd : (items.map Prod.fst).Nodup)
    (t : Table) (d : NodeId) (hs : dget items d = none) :
    dget (items.foldl (relaxStep nm nb w) (t, false)).1 d = dget t d := by
  rw [relaxFold_dget nm nb w items hnd t d]
  split
  · rfl
  · rename_i e heq
    rw [hs] at heq
    exact absurd heq (by simp)

/-- Characterization, present-key form for a destination other than self. -/
theorem relaxFold_dget_present (nm nb : NodeId) (w : Nat)
    (items : List (NodeId × TblEntry)) (hnd : (items.map Prod.fst).Nodup)
    (t : Table) (d : NodeId) (qe : TblEntry) (hs : dget items d = some qe)
    (hd : ¬ d = nm) :
    dget (items.foldl (relaxStep nm nb w) (t, false)).1 d =
      if bltC (addC w qe.1) (tcost t d) then some (addC w qe.1, some nb)
      else dget t d := by
  rw [relaxFold_dget nm nb w items hnd t d]
  split
  · rename_i heq
    rw [hs] at heq
    exact absurd heq (by simp)
  · rename_i e heq
    rw [hs] at heq
    simp only [Option.some.injEq] at heq
    subst heq
    rw [if_neg hd]

/-- The change flag of the fold: exactly when some received item strictly
improves on the starting table. -/
theorem relaxFold_flag_iff (nm nb : NodeId) (w : Nat)
    (items : List (NodeId × TblEntry)) (t : Table) :
    (items.foldl (relaxStep nm nb w) (t, false)).2 = items.any (improves nm w t) := by
  induction items generalizing t with
  | nil => simp
  | cons q rest ih =>
    simp only [List.foldl_cons, relaxStep_eq, List.any_cons]
    by_cases h1 : q.1 = nm
    · simp only [if_pos h1, improves, if_pos h1, Bool.false_or]
      exact ih t
    · simp only [if_neg h1, improves, if_neg h1]
      by_cases h2 : bltC (addC w q.2.1) (tcost t q.1) = true
      · simp only [if_pos h2, h2, Bool.true_or]
        rw [relaxFold_flag]
        simp
      · simp only [if_neg h2]
        rw [ih t]
        rw [Bool.not_eq_true] at h2
        rw [h2, Bool.false_or]

/-- A fold that reports no change leaves the table untouched. -/
theorem relaxFold_no_change (nm nb : NodeId) (w : Nat)
    (items : List (NodeId × TblEntry)) (t : Table)
    (h : (items.foldl (relaxStep nm nb w) (t, false)).2 = false) :
    (items.foldl (relaxStep nm nb w) (t, false)).1 = t := by
  induction items generalizing t with
  | nil => simp
  | cons q rest ih =>
    simp only [List.foldl_cons, relaxStep_eq] at h ⊢
    by_cases h1 : q.1 = nm
    · simp only [if_pos h1] at h ⊢
      exact ih t h
    · simp only [if_neg h1] at h ⊢
      by_cases h2 : bltC (addC w q.2.1) (tcost t q.1) = true
      · exfalso
        simp only [if_pos h2] at h
        rw [relaxFold_flag] at h
        simp at h
      · simp only [if_neg h2] at h ⊢
        exact ih t h

/-- Every cost in the table is non-increasing through the fold. -/
theorem relaxFold_mono (nm nb : NodeId) (w : Nat)
    (items : List (NodeId × TblEntry)) (t : Table) (d : NodeId) :
    cleC (tcost (items.foldl (relaxStep nm nb w) (t, false)).1 d) (tcost t d) = true := by
  induction items generalizing t with
  | nil => simp [cleC_refl]
  | cons q rest ih =>
    simp only [List.foldl_cons, relaxStep_eq]
    by_cases h1 : q.1 = nm
    · simp only [if_pos h1]
      exact ih t
    · simp only [if_neg h1]
      by_cases h2 : bltC (addC w q.2.1) (tcost t q.1) = true
      · simp only [if_pos h2]
        rw [relaxFold_flag]
        simp only
        refine cleC_trans (ih (dset t q.1 (addC w q.2.1, some nb))) ?_
        by_cases hd : q.1 = d
        · subst hd
          unfold tcost
          rw [dget_dset_self]
          exact cleC_of_bltC h2
        · unfold tcost
          rw [dget_dset_ne t q.1 d _ hd]
          exact cleC_refl _
      · simp only [if_neg h2]
        exact ih t

/-- A fold that reports a change strictly decreased some recorded cost. -/
theorem relaxFold_strict (nm nb : NodeId) (w : Nat)
    (items : List (NodeId × TblEntry)) (hnd : (items.map Prod.fst).Nodup) (t : Table)
    (h : (items.foldl (relaxStep nm nb w) (t, false)).2 = true) :
    ∃ d, bltC (tcost (items.foldl (relaxStep nm nb w) (t, false)).1 d) (tcost t d) = true := by
  rw [relaxFold_flag_iff, List.any_eq_true] at h
  obtain ⟨q, hq, himp⟩ := h
  simp only [improves] at himp
  by_cases h1 : q.1 = nm
  · rw [if_pos h1] at himp
    exact absurd himp (by simp)
  · rw [if_neg h1] at himp
    refine ⟨q.1, ?_⟩
    have hget : dget items q.1 = some q.2 := dget_of_mem_nodup hnd (by cases q; exact hq)
    have := relaxFold_dget nm nb w items hnd t q.1
    rw [hget] at this
    simp only [if_neg h1, himp, if_pos rfl] at this
    unfold tcost
    rw [this]
    simpa using himp

/-- The fold only writes keys of the received table; with every received key
already present, the key list of the table is unchanged. -/
theorem relaxFold_keys (nm nb : NodeId) (w : Nat)
    (items : List (NodeId × TblEntry)) (t : Table)
    (hsub : ∀ q ∈ items, q.1 ∈ t.map Prod.fst) :
    (items.foldl (relaxStep nm nb w) (t, false)).1.map Prod.fst = t.map Prod.fst := by
  induction items generalizing t with
  | nil => simp
  | cons q rest ih =>
    simp only [List.foldl_cons, relaxStep_eq]
    by_cases h1 : q.1 = nm
    · simp only [if_pos h1]
      exact ih t (fun r hr => hsub r (List.mem_cons_of_mem _ hr))
    · simp only [if_neg h1]
      by_cases h2 : bltC (addC w q.2.1) (tcost t q.1) = true
      · simp only [if_pos h2]
        rw [relaxFold_flag]
        simp only
        have hk : (dset t q.1 (addC w q.2.1, some nb)).map Prod.fst = t.map Prod.fst :=
          keys_dset_isSome t q.1 _
            (by rw [dget_isSome_iff]; exact hsub q (List.mem_cons_self _ _))
        rw [ih _ (fun r hr => by rw [hk]; exact hsub r (List.mem_cons_of_mem _ hr)), hk]
      · simp only [if_neg h2]
        exact ih t (fun r hr => hsub r (List.mem_cons_of_mem _ hr))

/-! ## Lemmas about Node.update_routing_table itself -/

/-- Unfolding of a successful update call. -/
theorem update_eq (self : Node) (nb : NodeId) (t : Table) (w : Nat)
    (h : dget self.neighbors nb = some w) :
    self.update_routing_table nb t =
      some ({ self with
                routing_table := (t.foldl (relaxStep self.name nb w)
                  (self.routing_table, false)).1 },
            (t.foldl (relaxStep self.name nb w) (self.routing_table, false)).2) := by
  unfold Node.update_routing_table
  rw [h]

/-- A successful update determines the link cost and exposes the fold. -/
theorem update_inv {self : Node} {nb : NodeId} {t : Table} {n' : Node} {b : Bool}
    (h : self.update_routing_table nb t = some (n', b)) :
    ∃ w, dget self.neighbors nb = some w ∧
      n'.name = self.name ∧ n'.neighbors = self.neighbors ∧
      n'.routing_table =
        (t.foldl (relaxStep self.name nb w) (self.routing_table, false)).1 ∧
      b = (t.foldl (relaxStep self.name nb w) (self.routing_table, false)).2 := by
  cases hw : dget self.neighbors nb with
  | none => unfold Node.update_routing_table at h; rw [hw] at h; exact absurd h (by simp)
  | some w =>
    rw [update_eq self nb t w hw] at h
    simp only [Option.some.injEq, Prod.mk.injEq] at h
    obtain ⟨hn, hb⟩ := h
    subst hn
    exact ⟨w, rfl, rfl, rfl, rfl, hb.symm⟩

/-! ## Walks and the reference shortest-path algorithm

The reference all-pairs shortest-path cost is the textbook Bellman-Ford
recursion `distUpTo adj k a b`: the least cost of a walk from a to b using at
most k edges, over the adjacency function adj (node -> neighbor-link dict). -/

/-- Cost of a vertex sequence: sum of the link costs of consecutive pairs,
`none` when some consecutive pair is not linked (or when the result would be
infinite). A single vertex or the empty sequence costs 0. -/
def chainCost (adj : NodeId → LinkMap) : List NodeId → Cost
  | a :: b :: rest =>
    match dget (adj a) b with
    | none => none
    | some w => addC w (chainCost adj (b :: rest))
  | _ => some 0

/-- The vertex sequence is a walk from a to d. -/
def IsWalkFrom (a d : NodeId) (l : List NodeId) : Prop :=
  l.head? = some a ∧ l.getLast? = some d

/-- Minimum of a cost function over a neighbor-link dict. -/
def minOver (f : NodeId × Nat → Cost) : LinkMap → Cost
  | [] => none
  | p :: rest => cmin (f p) (minOver f rest)

/-- Reference Bellman-Ford: least cost of a walk of at most k edges. -/
def distUpTo (adj : NodeId → LinkMap) : Nat → NodeId → NodeId → Cost
  | 0, a, b => if a = b then some 0 else none
  | k + 1, a, b =>
    cmin (distUpTo adj k a b)
      (minOver (fun p => addC p.2 (distUpTo adj k p.1 b)) (adj a))

theorem chainCost_single (adj : NodeId → LinkMap) (a : NodeId) :
    chainCost adj [a] = some 0 := rfl

theorem chainCost_cons_cons (adj : NodeId → LinkMap) (a b : NodeId) (l : List NodeId) :
    chainCost adj (a :: b :: l) =
      match dget (adj a) b with
      | none => none
      | some w => addC w (chainCost adj (b :: l)) := rfl

theorem minOver_le_mem (f : NodeId × Nat → Cost) {l : LinkMap} {p : NodeId × Nat}
    (h : p ∈ l) : cleC (minOver f l) (f p) = true := by
  induction l with
  | nil => simp at h
  | cons q rest ih =>
    rcases List.mem_cons.mp h with h | h
    · subst h
      exact cmin_le_left _ _
    · exact cleC_trans (cmin_le_right _ _) (ih h)

theorem cleC_minOver_intro (f : NodeId × Nat → Cost) (x : Cost) (l : LinkMap)
    (h : ∀ p ∈ l, cleC x (f p) = true) : cleC x (minOver f l) = true := by
  induction l with
  | nil => exact cleC_none_right x
  | cons q rest ih =>
    rw [minOver, cleC_cmin_iff]
    exact ⟨h q (List.mem_cons_self _ _),
           ih (fun p hp => h p (List.mem_cons_of_mem _ hp))⟩

theorem minOver_realize {f : NodeId × Nat → Cost} {l : LinkMap} {c : Nat}
    (h : minOver f l = some c) : ∃ p ∈ l, f p = some c := by
  induction l with
  | nil => simp [minOver] at h
  | cons q rest ih =>
    rw [minOver] at h
    rcases cmin_cases (f q) (minOver f rest) with hc | hc
    · exact ⟨q, List.mem_cons_self _ _, hc ▸ h⟩
    · obtain ⟨p, hp, hf⟩ := ih (hc ▸ h)
      exact ⟨p, List.mem_cons_of_mem _ hp, hf⟩

theorem distUpTo_self (adj : NodeId → LinkMap) (k : Nat) (a : NodeId) :
    distUpTo adj k a a = some 0 := by
  induction k with
  | zero => simp [distUpTo]
  | succ k ih => rw [distUpTo, ih, cmin_zero_left]

theorem distUpTo_anti (adj : NodeId → LinkMap) {k k' : Nat} (h : k ≤ k')
    (a b : NodeId) : cleC (distUpTo adj k' a b) (distUpTo adj k a b) = true := by
  induction k' with
  | zero =>
    cases Nat.le_zero.mp h
    exact cleC_refl _
  | succ k' ih =>
    rcases Nat.lt_or_ge k (k' + 1) with hk | hk
    · refine cleC_trans (x := distUpTo adj (k' + 1) a b) ?_ (ih (Nat.lt_succ_iff.mp hk))
      rw [distUpTo]
      exact cmin_le_left _ _
    · have : k = k' + 1 := Nat.le_antisymm h hk
      subst this
      exact cleC_refl _

/-- Any walk of at most k edges bounds the reference distance at level k. -/
theorem walk_bound (adj : NodeId → LinkMap) :
    ∀ (l : List NodeId) (a b : NodeId) (c : Nat), IsWalkFrom a b l →
      chainCost adj l = some c → ∀ k, l.length ≤ k + 1 →
      cleC (distUpTo adj k a b) (some c) = true := by
  intro l
  induction l with
  | nil => intro a b c hw; simp [IsWalkFrom] at hw
  | cons x rest ih =>
    intro a b c hw hc k hk
    obtain ⟨hh, hl⟩ := hw
    simp only [List.head?_cons, Option.some.injEq] at hh
    subst hh
    cases rest with
    | nil =>
      simp only [List.getLast?_singleton, Option.some.injEq] at hl
      subst hl
      simp only [chainCost_single, Option.some.injEq] at hc
      subst hc
      rw [distUpTo_self]
      exact cleC_refl _
    | cons y rest' =>
      rw [chainCost_cons_cons] at hc
      cases hxy : dget (adj x) y with
      | none => rw [hxy] at hc; simp at hc
      | some w =>
        rw [hxy] at hc
        cases hc2 : chainCost adj (y :: rest') with
        | none => rw [hc2] at hc; simp [addC] at hc
        | some c2 =>
          rw [hc2] at hc
          simp only [addC, Option.some.injEq] at hc
          cases k with
          | zero => simp at hk
          | succ k =>
            have hwalk2 : IsWalkFrom y b (y :: rest') := by
              refine ⟨by simp, ?_⟩
              rw [← hl]
              exact List.getLast?_cons_cons.symm
            have hb2 : cleC (distUpTo adj k y b) (some c2) = true :=
              ih y b c2 hwalk2 hc2 k (by simpa using Nat.succ_le_succ_iff.mp hk)
            rw [distUpTo]
            refine cleC_trans (cmin_le_right _ _) ?_
            refine cleC_trans (minOver_le_mem _ (dget_mem hxy)) ?_
            have := addC_mono w hb2
            simp only [addC] at this ⊢
            rw [← hc]
            exact this

/-- A finite reference distance is realized by an actual walk, provided each
neighbor dict has unique keys. -/
theorem distUpTo_realize (adj : NodeId → LinkMap)
    (hadj : ∀ k, ((adj k).map Prod.fst).Nodup) :
    ∀ (k : Nat) (a b : NodeId) (c : Nat), distUpTo adj k a b = some c →
      ∃ l, IsWalkFrom a b l ∧ chainCost adj l = some c := by
  intro k
  induction k with
  | zero =>
    intro a b c h
    rw [distUpTo] at h
    by_cases hab : a = b
    · rw [if_pos hab] at h
      simp only [Option.some.injEq] at h
      subst hab
      subst h
      exact ⟨[a], ⟨rfl, rfl⟩, rfl⟩
    · rw [if_neg hab] at h
      exact absurd h (by simp)
  | succ k ih =>
    intro a b c h
    rw [distUpTo] at h
    rcases cmin_cases (distUpTo adj k a b)
        (minOver (fun p => addC p.2 (distUpTo adj k p.1 b)) (adj a)) with hc | hc
    · exact ih a b c (hc ▸ h)
    · obtain ⟨p, hp, hf⟩ := minOver_realize (hc ▸ h)
      obtain ⟨nb, w⟩ := p
      dsimp only at hf
      cases hd : distUpTo adj k nb b with
      | none => rw [hd] at hf; simp [addC] at hf
      | some c2 =>
        rw [hd] at hf
        simp only [addC, Option.some.injEq] at hf
        obtain ⟨l2, hw2, hc2⟩ := ih nb b c2 hd
        cases l2 with
        | nil => simp [IsWalkFrom] at hw2
        | cons y rest =>
          obtain ⟨hh, hl⟩ := hw2
          simp only [List.head?_cons, Option.some.injEq] at hh
          subst hh
          refine ⟨a :: y :: rest, ⟨by simp, ?_⟩, ?_⟩
          · rw [← hl]
            exact List.getLast?_cons_cons
          · rw [chainCost_cons_cons, dget_of_mem_nodup (hadj a) hp]
            rw [hc2]
            simp [addC, hf]

/-! ## Cutting cycles out of walks

A walk can be shortened to one of at most as many vertices as the network has
names without increasing its cost; hence the level-(number of nodes) reference
distance is a lower bound for the cost of every walk. -/

/-- Sum of two costs (infinity absorbs). -/
def cadd : Cost → Cost → Cost
  | none, _ => none
  | some _, none => none
  | some a, some b => some (a + b)

theorem cadd_zero_left (y : Cost) : cadd (some 0) y = y := by
  cases y <;> simp [cadd]

theorem cadd_some_eq_addC (w : Nat) (y : Cost) : cadd (some w) y = addC w y := by
  cases y <;> simp [cadd, addC]

theorem addC_cadd (w : Nat) (x y : Cost) : addC w (cadd x y) = cadd (addC w x) y := by
  cases x <;> cases y <;> simp [cadd, addC] <;> omega

theorem chainCost_edge_none (adj : NodeId → LinkMap) {a b : NodeId}
    (l : List NodeId) (h : dget (adj a) b = none) :
    chainCost adj (a :: b :: l) = none := by
  rw [chainCost_cons_cons, h]

theorem chainCost_edge_some (adj : NodeId → LinkMap) {a b : NodeId} {w : Nat}
    (l : List NodeId) (h : dget (adj a) b = some w) :
    chainCost adj (a :: b :: l) = addC w (chainCost adj (b :: l)) := by
  rw [chainCost_cons_cons, h]

/-- Splitting the cost of a vertex sequence at an interior vertex. -/
theorem chainCost_append (adj : NodeId → LinkMap) (x : NodeId) (l₂ : List NodeId) :
    ∀ l₁ : List NodeId,
      chainCost adj (l₁ ++ x :: l₂) =
        cadd (chainCost adj (l₁ ++ [x])) (chainCost adj (x :: l₂)) := by
  intro l₁
  induction l₁ with
  | nil => simp [chainCost_single, cadd_zero_left]
  | cons a l₁' ih =>
    cases l₁' with
    | nil =>
      simp only [List.nil_append, List.cons_append]
      cases h : dget (adj a) x with
      | none =>
        rw [chainCost_edge_none adj _ h, chainCost_edge_none adj _ h]
        simp [cadd]
      | some w =>
        rw [chainCost_edge_some adj _ h, chainCost_edge_some adj _ h, chainCost_single]
        cases chainCost adj (x :: l₂) <;> simp [addC, cadd]
    | cons b l₁'' =>
      simp only [List.cons_append] at ih ⊢
      cases h : dget (adj a) b with
      | none =>
        rw [chainCost_edge_none adj _ h, chainCost_edge_none adj _ h]
        simp [cadd]
      | some w =>
        rw [chainCost_edge_some adj _ h, chainCost_edge_some adj _ h, ih, addC_cadd]

/-- Every vertex of a finite-cost vertex sequence whose head is a known name
is itself a known name (edges only lead to names). -/
theorem chain_mem_names (adj : NodeId → LinkMap) (names : List NodeId)
    (hadj : ∀ k, ∀ p ∈ adj k, p.1 ∈ names) :
    ∀ (l : List NodeId) (a : NodeId) (c : Nat), l.head? = some a → a ∈ names →
      chainCost adj l = some c → ∀ v ∈ l, v ∈ names := by
  intro l
  induction l with
  | nil => intro a c hh; simp at hh
  | cons x rest ih =>
    intro a c hh ha hc v hv
    simp only [List.head?_cons, Option.some.injEq] at hh
    subst hh
    cases rest with
    | nil => rcases List.mem_singleton.mp hv with rfl; exact ha
    | cons y rest' =>
      rw [chainCost_cons_cons] at hc
      cases hxy : dget (adj x) y with
      | none => rw [hxy] at hc; simp at hc
      | some w =>
        rw [hxy] at hc
        cases hc2 : chainCost adj (y :: rest') with
        | none => rw [hc2] at hc; simp [addC] at hc
        | some c2 =>
          have hy : y ∈ names := hadj x (y, w) (dget_mem hxy)
          rcases List.mem_cons.mp hv with rfl | hv
          · exact ha
          · exact ih y c2 rfl hy hc2 v hv

/-- A list that is not duplicate-free splits around a repeated element. -/
theorem not_nodup_decomp {l : List NodeId} (h : ¬ l.Nodup) :
    ∃ (pre : List NodeId) (x : NodeId) (mid post : List NodeId),
      l = pre ++ x :: (mid ++ x :: post) := by
  induction l with
  | nil => exact absurd List.nodup_nil h
  | cons a rest ih =>
    by_cases ha : a ∈ rest
    · obtain ⟨mid, post, hsplit⟩ := List.append_of_mem ha
      exact ⟨[], a, mid, post, by rw [hsplit]; rfl⟩
    · have : ¬ rest.Nodup := fun hn => h (List.nodup_cons.mpr ⟨ha, hn⟩)
      obtain ⟨pre, x, mid, post, hsplit⟩ := ih this
      exact ⟨a :: pre, x, mid, post, by rw [hsplit]; rfl⟩

/-- Any finite-cost walk between names can be shortened to a walk of at most
(number of names) vertices without increasing the cost. -/
theorem walk_shorten (adj : NodeId → LinkMap) (names : List NodeId)
    (hadj : ∀ k, ∀ p ∈ adj k, p.1 ∈ names) :
    ∀ (n : Nat) (l : List NodeId), l.length ≤ n → ∀ (a b : NodeId) (c : Nat),
      IsWalkFrom a b l → chainCost adj l = some c → a ∈ names →
      ∃ (l' : List NodeId) (c' : Nat), IsWalkFrom a b l' ∧
        chainCost adj l' = some c' ∧ c' ≤ c ∧ l'.length ≤ names.length := by
  intro n
  induction n with
  | zero =>
    intro l hl a b c hw
    rw [Nat.le_zero, List.length_eq_zero] at hl
    subst hl
    simp [IsWalkFrom] at hw
  | succ n ih =>
    intro l hl a b c hw hc ha
    by_cases hnd : l.Nodup
    · refine ⟨l, c, hw, hc, Nat.le_refl c, ?_⟩
      have hsub : l.toFinset ⊆ names.toFinset := by
        intro v hv
        rw [List.mem_toFinset] at hv ⊢
        exact chain_mem_names adj names hadj l a c hw.1 ha hc v hv
      calc l.length = l.toFinset.card := (List.toFinset_card_of_nodup hnd).symm
        _ ≤ names.toFinset.card := Finset.card_le_card hsub
        _ ≤ names.length := List.toFinset_card_le names
    · obtain ⟨pre, x, mid, post, hsplit⟩ := not_nodup_decomp hnd
      subst hsplit
      -- split the cost at the two occurrences of x
      rw [chainCost_append] at hc
      have hc2 := hc
      cases hA : chainCost adj (pre ++ [x]) with
      | none => rw [hA] at hc2; simp [cadd] at hc2
      | some ca =>
        rw [hA] at hc2
        have hmid : chainCost adj (x :: (mid ++ x :: post)) =
            cadd (chainCost adj ((x :: mid) ++ [x])) (chainCost adj (x :: post)) :=
          chainCost_append adj x post (x :: mid)
        rw [hmid] at hc2
        cases hB : chainCost adj ((x :: mid) ++ [x]) with
        | none => rw [hB] at hc2; simp [cadd] at hc2
        | some cb =>
          rw [hB] at hc2
          cases hC : chainCost adj (x :: post) with
          | none => rw [hC] at hc2; simp [cadd] at hc2
          | some cc =>
            rw [hC] at hc2
            simp only [cadd, Option.some.injEq] at hc2
            -- the shortened walk
            have hshort : chainCost adj (pre ++ x :: post) = some (ca + cc) := by
              rw [chainCost_append, hA, hC]
              rfl
            have hwalk' : IsWalkFrom a b (pre ++ x :: post) := by
              obtain ⟨hh, hlast⟩ := hw
              constructor
              · cases pre with
                | nil =>
                  simp only [List.nil_append, List.head?_cons] at hh ⊢
                  exact hh
                | cons p0 prest =>
                  simp only [List.cons_append, List.head?_cons] at hh ⊢
                  exact hh
              · have heq : pre ++ x :: (mid ++ x :: post) =
                    (pre ++ x :: mid) ++ x :: post := by
                  simp
                rw [heq, List.getLast?_append_cons] at hlast
                rw [List.getLast?_append_cons]
                exact hlast
            have hlen : (pre ++ x :: post).length ≤ n := by
              have := List.length_append pre (x :: (mid ++ x :: post))
              have := List.length_append pre (x :: post)
              simp only [List.length_append, List.length_cons] at hl ⊢
              omega
            obtain ⟨l', c', h1, h2, h3, h4⟩ :=
              ih (pre ++ x :: post) hlen a b (ca + cc) hwalk' hshort ha
            exact ⟨l', c', h1, h2, by omega, h4⟩

/-- The level-(number of names) reference distance is a lower bound for the
cost of every walk between names. -/
theorem distUpTo_names_le_walk (adj : NodeId → LinkMap) (names : List NodeId)
    (hadj : ∀ k, ∀ p ∈ adj k, p.1 ∈ names) (a b : NodeId) (ha : a ∈ names)
    (l : List NodeId) (c : Nat) (hw : IsWalkFrom a b l)
    (hc : chainCost adj l = some c) :
    cleC (distUpTo adj names.length a b) (some c) = true := by
  obtain ⟨l', c', h1, h2, h3, h4⟩ :=
    walk_shorten adj names hadj l.length l (Nat.le_refl _) a b c hw hc ha
  have hb : cleC (distUpTo adj names.length a b) (some c') = true :=
    walk_bound adj l' a b c' h1 h2 names.length (by omega)
  refine cleC_trans hb ?_
  simp [cleC, h3]

/-! ## State invariants of the convergence algorithm -/

/-- Soundness of one routing-table entry of node A for destination d: an
infinite entry has no next hop; the self entry is (0, A); any other finite
entry records the first hop of an actual walk of exactly that cost. -/
def EntryOk (adj : NodeId → LinkMap) (A d : NodeId) : TblEntry → Prop
  | (none, h) => h = none
  | (some c, h) =>
    if d = A then c = 0 ∧ h = some A
    else ∃ nb l, h = some nb ∧ IsWalkFrom A d (A :: nb :: l) ∧
      chainCost adj (A :: nb :: l) = some c

theorem EntryOk_none_fst (adj : NodeId → LinkMap) (A d : NodeId) (h : Hop) :
    EntryOk adj A d (none, h) = (h = none) := rfl

theorem EntryOk_some_fst (adj : NodeId → LinkMap) (A d : NodeId) (c : Nat) (h : Hop) :
    EntryOk adj A d (some c, h) =
      if d = A then c = 0 ∧ h = some A
      else ∃ nb l, h = some nb ∧ IsWalkFrom A d (A :: nb :: l) ∧
        chainCost adj (A :: nb :: l) = some c := rfl

/-- Invariant of the routing table of node k: unique keys, exactly one entry
per known name, the self entry (0, k), and every entry sound. -/
def TableOk (adj : NodeId → LinkMap) (names : List NodeId) (k : NodeId)
    (t : Table) : Prop :=
  (t.map Prod.fst).Nodup ∧
  (∀ d, (dget t d).isSome ↔ d ∈ names) ∧
  dget t k = some (some 0, some k) ∧
  (∀ d e, dget t d = some e → EntryOk adj k d e)

/-- Invariant of a stored node under key k. -/
def NodeOk (adj : NodeId → LinkMap) (names : List NodeId) (k : NodeId)
    (n : Node) : Prop :=
  n.name = k ∧ n.neighbors = adj k ∧ TableOk adj names k n.routing_table

/-- Well-formedness of the ambient adjacency: unique neighbor keys and
neighbors are known names. -/
def AdjOk (adj : NodeId → LinkMap) (names : List NodeId) : Prop :=
  ∀ k, ((adj k).map Prod.fst).Nodup ∧ ∀ p ∈ adj k, p.1 ∈ names

/-- A successful update of a sound node against a sound received table keeps
the node sound. -/
theorem update_preserves_NodeOk {adj : NodeId → LinkMap} {names : List NodeId}
    {k nb : NodeId} {n n' : Node} {b : Bool} {ts : Table}
    (hn : NodeOk adj names k n) (hts : TableOk adj names nb ts)
    (hup : n.update_routing_table nb ts = some (n', b)) :
    NodeOk adj names k n' := by
  obtain ⟨w, hw, hname, hnbr, htbl, hbflag⟩ := update_inv hup
  have hnamek := hn.1
  have hnbrk := hn.2.1
  obtain ⟨hndT, hkeysT, hselfT, hokT⟩ := hn.2.2
  obtain ⟨hndS, hkeysS, hselfS, hokS⟩ := hts
  have hwk : dget (adj k) nb = some w := by rw [← hnbrk]; exact hw
  have hsub : ∀ q ∈ ts, q.1 ∈ n.routing_table.map Prod.fst := by
    intro q hq
    rw [← dget_isSome_iff, hkeysT, ← hkeysS, dget_isSome_iff]
    exact List.mem_map.mpr ⟨q, hq, rfl⟩
  have hkeys' : n'.routing_table.map Prod.fst = n.routing_table.map Prod.fst := by
    rw [htbl]
    exact relaxFold_keys n.name nb w ts n.routing_table hsub
  refine ⟨hname.trans hnamek, hnbr.trans hnbrk, ?_, ?_, ?_, ?_⟩
  · rw [hkeys']
    exact hndT
  · intro d
    rw [dget_isSome_iff, hkeys', ← dget_isSome_iff]
    exact hkeysT d
  · rw [htbl, ← hnamek, relaxFold_self, hnamek]
    exact hselfT
  · intro d e hde
    rw [htbl] at hde
    cases hs : dget ts d with
    | none =>
      rw [relaxFold_dget_absent n.name nb w ts hndS n.routing_table d hs] at hde
      exact hokT d e hde
    | some qe =>
      by_cases hdnm : d = n.name
      · rw [hdnm, relaxFold_self] at hde
        rw [← hdnm] at hde
        exact hokT d e hde
      · rw [relaxFold_dget_present n.name nb w ts hndS n.routing_table d qe hs hdnm]
          at hde
        by_cases hblt : bltC (addC w qe.1) (tcost n.routing_table d) = true
        · rw [if_pos hblt] at hde
          -- a freshly written entry: reconstruct the witnessing walk
          obtain ⟨q1, q2⟩ := qe
          cases hq1 : q1 with
          | none =>
            rw [hq1] at hblt
            simp [addC, bltC] at hblt
          | some c2 =>
            subst hq1
            have hok2 := hokS d _ hs
            have hdk : ¬ d = k := fun e2 => hdnm (e2.trans hnamek.symm)
            simp only [addC] at hde
            simp only [Option.some.injEq] at hde
            subst hde
            rw [EntryOk_some_fst, if_neg hdk]
            by_cases hdnb : d = nb
            · -- the received entry is the neighbor's self entry
              have hself2 : dget ts nb = some (some 0, some nb) := hselfS
              rw [← hdnb, hs] at hself2
              simp only [Option.some.injEq, Prod.mk.injEq] at hself2
              have hc20 : c2 = 0 := by
                have := hself2.1
                simpa using this
              refine ⟨nb, [], rfl, ⟨rfl, ?_⟩, ?_⟩
              · simp [hdnb]
              · rw [chainCost_edge_some adj [] hwk, chainCost_single, hc20]
                rfl
            · -- the received entry points along a walk of the neighbor
              rw [EntryOk_some_fst, if_neg hdnb] at hok2
              obtain ⟨h2, l2, hh2, hwalk2, hcost2⟩ := hok2
              refine ⟨nb, h2 :: l2, rfl, ⟨rfl, ?_⟩, ?_⟩
              · rw [List.getLast?_cons_cons]
                exact hwalk2.2
              · rw [chainCost_edge_some adj _ hwk, hcost2]
                rfl
        · rw [if_neg hblt] at hde
          exact hokT d e hde

/-! ## Lemmas about the per-node relaxation loop -/

/-- A no-change update leaves the node exactly as it was. -/
theorem update_false_eq {n : Node} {nb : NodeId} {t : Table} {n' : Node}
    (h : n.update_routing_table nb t = some (n', false)) : n' = n := by
  obtain ⟨w, hw, hname, hnbr, htbl, hbflag⟩ := update_inv h
  have htbl' : n'.routing_table = n.routing_table := by
    rw [htbl]
    exact relaxFold_no_change n.name nb w t n.routing_table hbflag.symm
  cases n'
  cases n
  simp_all

/-- Costs are non-increasing through one update. -/
theorem update_mono {n : Node} {nb : NodeId} {t : Table} {n' : Node} {b : Bool}
    (h : n.update_routing_table nb t = some (n', b)) (d : NodeId) :
    cleC (tcost n'.routing_table d) (tcost n.routing_table d) = true := by
  obtain ⟨w, hw, hname, hnbr, htbl, hbflag⟩ := update_inv h
  rw [htbl]
  exact relaxFold_mono n.name nb w t n.routing_table d

/-- A changing update strictly decreases some recorded cost. -/
theorem update_strict {n : Node} {nb : NodeId} {t : Table} {n' : Node}
    (hnd : (t.map Prod.fst).Nodup)
    (h : n.update_routing_table nb t = some (n', true)) :
    ∃ d, bltC (tcost n'.routing_table d) (tcost n.routing_table d) = true := by
  obtain ⟨w, hw, hname, hnbr, htbl, hbflag⟩ := update_inv h
  rw [htbl]
  exact relaxFold_strict n.name nb w t hnd n.routing_table hbflag.symm

/-- An update whose received keys are all present keeps the key list. -/
theorem update_keys {n : Node} {nb : NodeId} {t : Table} {n' : Node} {b : Bool}
    (h : n.update_routing_table nb t = some (n', b))
    (hsub : ∀ q ∈ t, q.1 ∈ n.routing_table.map Prod.fst) :
    n'.routing_table.map Prod.fst = n.routing_table.map Prod.fst := by
  obtain ⟨w, hw, hname, hnbr, htbl, hbflag⟩ := update_inv h
  rw [htbl]
  exact relaxFold_keys n.name nb w t n.routing_table hsub

theorem relaxNodeStep_none (snaps : List (NodeId × Table)) (l : List (NodeId × Nat)) :
    l.foldl (relaxNodeStep snaps) none = none := by
  induction l with
  | nil => rfl
  | cons p rest ih => exact ih

theorem relaxNodeStep_some (snaps : List (NodeId × Table)) (n : Node) (b : Bool)
    (p : NodeId × Nat) (t : Table) (n1 : Node) (b1 : Bool)
    (hsn : dget snaps p.1 = some t)
    (hup : n.update_routing_table p.1 t = some (n1, b1)) :
    relaxNodeStep snaps (some (n, b)) p = some (n1, b || b1) := by
  simp [relaxNodeStep, hsn, hup]

/-- Inverting one step of the relaxation chain. -/
theorem relaxAcc_cons_inv {snaps : List (NodeId × Table)} {p : NodeId × Nat}
    {rest : List (NodeId × Nat)} {n0 : Node} {b0 : Bool} {n' : Node} {b' : Bool}
    (h : (p :: rest).foldl (relaxNodeStep snaps) (some (n0, b0)) = some (n', b')) :
    ∃ t n1 b1, dget snaps p.1 = some t ∧
      n0.update_routing_table p.1 t = some (n1, b1) ∧
      rest.foldl (relaxNodeStep snaps) (some (n1, b0 || b1)) = some (n', b') := by
  rw [List.foldl_cons] at h
  cases hsn : dget snaps p.1 with
  | none =>
    rw [show relaxNodeStep snaps (some (n0, b0)) p = none by
          simp [relaxNodeStep, hsn]] at h
    rw [relaxNodeStep_none] at h
    exact absurd h (by simp)
  | some t =>
    cases hup : n0.update_routing_table p.1 t with
    | none =>
      rw [show relaxNodeStep snaps (some (n0, b0)) p = none by
            simp [relaxNodeStep, hsn, hup]] at h
      rw [relaxNodeStep_none] at h
      exact absurd h (by simp)
    | some r =>
      obtain ⟨n1, b1⟩ := r
      rw [relaxNodeStep_some snaps n0 b0 p t n1 b1 hsn hup] at h
      exact ⟨t, n1, b1, rfl, hup, h⟩

/-- Name and neighbor set survive the whole relaxation chain. -/
theorem relaxAcc_frame (snaps : List (NodeId × Table)) :
    ∀ (l : List (NodeId × Nat)) (n0 : Node) (b0 : Bool) (n' : Node) (b' : Bool),
      l.foldl (relaxNodeStep snaps) (some (n0, b0)) = some (n', b') →
      n'.name = n0.name ∧ n'.neighbors = n0.neighbors := by
  intro l
  induction l with
  | nil =>
    intro n0 b0 n' b' h
    simp only [List.foldl_nil, Option.some.injEq, Prod.mk.injEq] at h
    rw [h.1]
    exact ⟨rfl, rfl⟩
  | cons p rest ih =>
    intro n0 b0 n' b' h
    obtain ⟨t, n1, b1, hsn, hup, hrest⟩ := relaxAcc_cons_inv h
    obtain ⟨w, hw, hname, hnbr, htbl, hbflag⟩ := update_inv hup
    have := ih n1 (b0 || b1) n' b' hrest
    exact ⟨this.1.trans hname, this.2.trans hnbr⟩

/-- Costs are non-increasing through the whole relaxation chain. -/
theorem relaxAcc_mono (snaps : List (NodeId × Table)) :
    ∀ (l : List (NodeId × Nat)) (n0 : Node) (b0 : Bool) (n' : Node) (b' : Bool),
      l.foldl (relaxNodeStep snaps) (some (n0, b0)) = some (n', b') →
      ∀ d, cleC (tcost n'.routing_table d) (tcost n0.routing_table d) = true := by
  intro l
  induction l with
  | nil =>
    intro n0 b0 n' b' h d
    simp only [List.foldl_nil, Option.some.injEq, Prod.mk.injEq] at h
    rw [h.1]
    exact cleC_refl _
  | cons p rest ih =>
    intro n0 b0 n' b' h d
    obtain ⟨t, n1, b1, hsn, hup, hrest⟩ := relaxAcc_cons_inv h
    exact cleC_trans (ih n1 (b0 || b1) n' b' hrest d) (update_mono hup d)

/-- The change flag only ever grows along the chain. -/
theorem relaxAcc_flag_mono (snaps : List (NodeId × Table)) :
    ∀ (l : List (NodeId × Nat)) (n0 : Node) (n' : Node) (b' : Bool),
      l.foldl (relaxNodeStep snaps) (some (n0, true)) = some (n', b') →
      b' = true := by
  intro l
  induction l with
  | nil =>
    intro n0 n' b' h
    simp only [List.foldl_nil, Option.some.injEq, Prod.mk.injEq] at h
    exact h.2.symm
  | cons p rest ih =>
    intro n0 n' b' h
    obtain ⟨t, n1, b1, hsn, hup, hrest⟩ := relaxAcc_cons_inv h
    rw [Bool.true_or] at hrest
    exact ih n1 n' b' hrest

/-- A chain that ends unchanged visited every neighbor with a no-change
update and kept the node identical. -/
theorem relaxAcc_false (snaps : List (NodeId × Table)) :
    ∀ (l : List (NodeId × Nat)) (n0 : Node) (n' : Node),
      l.foldl (relaxNodeStep snaps) (some (n0, false)) = some (n', false) →
      n' = n0 ∧ ∀ p ∈ l, ∃ t, dget snaps p.1 = some t ∧
        n0.update_routing_table p.1 t = some (n0, false) := by
  intro l
  induction l with
  | nil =>
    intro n0 n' h
    simp only [List.foldl_nil, Option.some.injEq, Prod.mk.injEq] at h
    exact ⟨h.1.symm, by simp⟩
  | cons p rest ih =>
    intro n0 n' h
    obtain ⟨t, n1, b1, hsn, hup, hrest⟩ := relaxAcc_cons_inv h
    cases b1 with
    | true =>
      exfalso
      rw [Bool.false_or] at hrest
      exact absurd (relaxAcc_flag_mono snaps rest n1 n' false hrest) (by simp)
    | false =>
      have hn1 : n1 = n0 := update_false_eq hup
      subst hn1
      rw [Bool.false_or] at hrest
      obtain ⟨h1, h2⟩ := ih n1 n' hrest
      refine ⟨h1, ?_⟩
      intro q hq
      rcases List.mem_cons.mp hq with rfl | hq2
      · exact ⟨t, hsn, hup⟩
      · exact h2 q hq2

/-- The relaxation chain preserves the node invariant when every consulted
snapshot is sound. -/
theorem relaxAcc_preserves_NodeOk {adj : NodeId → LinkMap} {names : List NodeId}
    {k : NodeId} (snaps : List (NodeId × Table)) :
    ∀ (l : List (NodeId × Nat)) (n0 : Node) (b0 : Bool) (n' : Node) (b' : Bool),
      l.foldl (relaxNodeStep snaps) (some (n0, b0)) = some (n', b') →
      NodeOk adj names k n0 →
      (∀ p ∈ l, ∀ t, dget snaps p.1 = some t → TableOk adj names p.1 t) →
      NodeOk adj names k n' := by
  intro l
  induction l with
  | nil =>
    intro n0 b0 n' b' h hok hsn
    simp only [List.foldl_nil, Option.some.injEq, Prod.mk.injEq] at h
    rw [← h.1]
    exact hok
  | cons p rest ih =>
    intro n0 b0 n' b' h hok hsn
    obtain ⟨t, n1, b1, hsnp, hup, hrest⟩ := relaxAcc_cons_inv h
    have hts : TableOk adj names p.1 t := hsn p (List.mem_cons_self _ _) t hsnp
    have hok1 : NodeOk adj names k n1 := update_preserves_NodeOk hok hts hup
    exact ih n1 (b0 || b1) n' b' hrest hok1
      (fun q hq => hsn q (List.mem_cons_of_mem _ hq))

/-- A changing relaxation chain strictly decreases some recorded cost. -/
theorem relaxAcc_strict (snaps : List (NodeId × Table)) :
    ∀ (l : List (NodeId × Nat)) (n0 : Node) (n' : Node),
      (∀ p ∈ l, ∀ t, dget snaps p.1 = some t → (t.map Prod.fst).Nodup) →
      l.foldl (relaxNodeStep snaps) (some (n0, false)) = some (n', true) →
      ∃ d, bltC (tcost n'.routing_table d) (tcost n0.routing_table d) = true := by
  intro l
  induction l with
  | nil =>
    intro n0 n' _ h
    simp only [List.foldl_nil, Option.some.injEq, Prod.mk.injEq] at h
    exact absurd h.2 (by simp)
  | cons p rest ih =>
    intro n0 n' hnd h
    obtain ⟨t, n1, b1, hsnp, hup, hrest⟩ := relaxAcc_cons_inv h
    cases b1 with
    | false =>
      have hn1 : n1 = n0 := update_false_eq hup
      subst hn1
      rw [Bool.false_or] at hrest
      exact ih n1 n' (fun q hq => hnd q (List.mem_cons_of_mem _ hq)) hrest
    | true =>
      obtain ⟨d, hd⟩ :=
        update_strict (hnd p (List.mem_cons_self _ _) t hsnp) hup
      refine ⟨d, ?_⟩
      rw [Bool.false_or] at hrest
      exact bltC_of_cleC_bltC_cleC
        (relaxAcc_mono snaps rest n1 true n' true hrest d) hd (cleC_refl _)

/-- The relaxation chain keeps the table's key list when every snapshot key is
already a key of the node's table. -/
theorem relaxAcc_keys (snaps : List (NodeId × Table)) :
    ∀ (l : List (NodeId × Nat)) (n0 : Node) (b0 : Bool) (n' : Node) (b' : Bool),
      l.foldl (relaxNodeStep snaps) (some (n0, b0)) = some (n', b') →
      (∀ p ∈ l, ∀ t, dget snaps p.1 = some t →
        ∀ q ∈ t, q.1 ∈ n0.routing_table.map Prod.fst) →
      n'.routing_table.map Prod.fst = n0.routing_table.map Prod.fst := by
  intro l
  induction l with
  | nil =>
    intro n0 b0 n' b' h _
    simp only [List.foldl_nil, Option.some.injEq, Prod.mk.injEq] at h
    rw [← h.1]
  | cons p rest ih =>
    intro n0 b0 n' b' h hsub
    obtain ⟨t, n1, b1, hsnp, hup, hrest⟩ := relaxAcc_cons_inv h
    have hk1 : n1.routing_table.map Prod.fst = n0.routing_table.map Prod.fst :=
      update_keys hup (hsub p (List.mem_cons_self _ _) t hsnp)
    have := ih n1 (b0 || b1) n' b' hrest
      (fun q hq t2 ht2 r hr => by
        rw [hk1]
        exact hsub q (List.mem_cons_of_mem _ hq) t2 ht2 r hr)
    exact this.trans hk1

/-- The relaxation chain succeeds when every visited neighbor has a snapshot
and a link-cost entry. -/
theorem relaxAcc_isSome (snaps : List (NodeId × Table)) :
    ∀ (l : List (NodeId × Nat)) (n0 : Node) (b0 : Bool),
      (∀ p ∈ l, (dget snaps p.1).isSome) →
      (∀ p ∈ l, (dget n0.neighbors p.1).isSome) →
      (l.foldl (relaxNodeStep snaps) (some (n0, b0))).isSome := by
  intro l
  induction l with
  | nil => intro n0 b0 _ _; simp
  | cons p rest ih =>
    intro n0 b0 hs hl
    obtain ⟨t, hsnp⟩ := Option.isSome_iff_exists.mp (hs p (List.mem_cons_self _ _))
    obtain ⟨w, hw⟩ := Option.isSome_iff_exists.mp (hl p (List.mem_cons_self _ _))
    rw [List.foldl_cons, relaxNodeStep_some snaps n0 b0 p t
      ({ n0 with routing_table :=
          (t.foldl (relaxStep n0.name p.1 w) (n0.routing_table, false)).1 })
      ((t.foldl (relaxStep n0.name p.1 w) (n0.routing_table, false)).2)
      hsnp (update_eq n0 p.1 t w hw)]
    exact ih _ _ (fun q hq => hs q (List.mem_cons_of_mem _ hq))
      (fun q hq => hl q (List.mem_cons_of_mem _ hq))

/-! ## Network-level invariants and the round -/

/-- Invariant of a whole network state during convergence. -/
def NetOk (adj : NodeId → LinkMap) (names : List NodeId) (net : Network) : Prop :=
  net.names = names ∧ (net.nodes.map Prod.fst).Nodup ∧
  ∀ p ∈ net.nodes, NodeOk adj names p.1 p.2

theorem dget_map_snd {β : Type} (f : Node → β) (ns : List (NodeId × Node))
    (k : NodeId) :
    dget (ns.map (fun p => (p.1, f p.2))) k = (dget ns k).map f := by
  induction ns with
  | nil => simp [dget]
  | cons p rest ih =>
    by_cases hp : p.1 = k
    · simp [dget, hp]
    · simp [dget, hp, ih]

theorem map_name_key (ns : List (NodeId × Node)) (h : ∀ p ∈ ns, p.2.name = p.1) :
    ns.map (fun p => (p.2.name, p.2.send_routing_table)) =
      ns.map (fun p => (p.1, p.2.routing_table)) := by
  induction ns with
  | nil => rfl
  | cons p rest ih =>
    simp only [List.map_cons, List.cons.injEq]
    refine ⟨?_, ih (fun q hq => h q (List.mem_cons_of_mem _ hq))⟩
    rw [h p (List.mem_cons_self _ _)]
    rfl

/-- With matching names the snapshot dict is the table dict. -/
theorem sent_tables_eq (net : Network) (hname : ∀ p ∈ net.nodes, p.2.name = p.1) :
    net.sent_tables = net.nodes.map (fun p => (p.1, p.2.routing_table)) := by
  unfold Network.sent_tables
  exact map_name_key net.nodes hname

/-- Snapshot lookup under the network invariant. -/
theorem sent_tables_dget {adj : NodeId → LinkMap} {names : List NodeId}
    {net : Network} (hok : NetOk adj names net) (k : NodeId) :
    dget net.sent_tables k = (dget net.nodes k).map Node.routing_table := by
  rw [sent_tables_eq net (fun p hp => (hok.2.2 p hp).1)]
  exact dget_map_snd Node.routing_table net.nodes k

/-- Every snapshot produced under the invariant is a sound table. -/
theorem sent_tables_TableOk {adj : NodeId → LinkMap} {names : List NodeId}
    {net : Network} (hok : NetOk adj names net) :
    ∀ nb t, dget net.sent_tables nb = some t → TableOk adj names nb t := by
  intro nb t h
  rw [sent_tables_dget hok] at h
  cases hn : dget net.nodes nb with
  | none => rw [hn] at h; exact absurd h (by simp)
  | some n =>
    rw [hn] at h
    simp only [Option.map_some', Option.some.injEq] at h
    subst h
    exact (hok.2.2 (nb, n) (dget_mem hn)).2.2

/-- Under the invariant every name has a snapshot. -/
theorem sent_tables_isSome {adj : NodeId → LinkMap} {names : List NodeId}
    {net : Network} (hok : NetOk adj names net) (nb : NodeId) (hnb : nb ∈ names) :
    (dget net.sent_tables nb).isSome := by
  rw [sent_tables_dget hok]
  have : (dget net.nodes nb).isSome := by
    rw [dget_isSome_iff]
    rw [← hok.1] at hnb
    exact hnb
  cases h : dget net.nodes nb with
  | none => rw [h] at this; simp at this
  | some n => simp

/-- Step 2 keeps the key list of the node dict. -/
theorem roundNodes_keys (snaps : List (NodeId × Table)) :
    ∀ (ns ns' : List (NodeId × Node)) (b : Bool),
      roundNodes snaps ns = some (ns', b) → ns'.map Prod.fst = ns.map Prod.fst := by
  intro ns
  induction ns with
  | nil =>
    intro ns' b h
    simp only [roundNodes, Option.some.injEq, Prod.mk.injEq] at h
    rw [← h.1]
  | cons p rest ih =>
    intro ns' b h
    rw [roundNodes] at h
    cases hrx : relaxNode snaps p.2 with
    | none => rw [hrx] at h; exact absurd h (by simp)
    | some r =>
      obtain ⟨n1, b1⟩ := r
      rw [hrx] at h
      cases hrn : roundNodes snaps rest with
      | none => rw [hrn] at h; exact absurd h (by simp)
      | some r2 =>
        obtain ⟨rest', b2⟩ := r2
        rw [hrn] at h
        simp only [Option.some.injEq, Prod.mk.injEq] at h
        rw [← h.1]
        simp only [List.map_cons, List.cons.injEq, true_and]
        exact ih rest' b2 hrn

/-- Inversion of step 2 on a cons cell. -/
theorem roundNodes_cons_inv {snaps : List (NodeId × Table)} {p : NodeId × Node}
    {rest : List (NodeId × Node)} {ns' : List (NodeId × Node)} {b : Bool}
    (h : roundNodes snaps (p :: rest) = some (ns', b)) :
    ∃ n1 b1 rest' b2, relaxNode snaps p.2 = some (n1, b1) ∧
      roundNodes snaps rest = some (rest', b2) ∧
      ns' = (p.1, n1) :: rest' ∧ b = (b1 || b2) := by
  rw [roundNodes] at h
  cases hrx : relaxNode snaps p.2 with
  | none => rw [hrx] at h; exact absurd h (by simp)
  | some r =>
    obtain ⟨n1, b1⟩ := r
    rw [hrx] at h
    cases hrn : roundNodes snaps rest with
    | none => rw [hrn] at h; exact absurd h (by simp)
    | some r2 =>
      obtain ⟨rest', b2⟩ := r2
      rw [hrn] at h
      simp only [Option.some.injEq, Prod.mk.injEq] at h
      exact ⟨n1, b1, rest', b2, rfl, rfl, h.1.symm, h.2.symm⟩

/-- Reading the produced node dict of step 2: every key holds the relaxed
version of the node it held before. -/
theorem roundNodes_dget (snaps : List (NodeId × Table)) :
    ∀ (ns ns' : List (NodeId × Node)) (b : Bool),
      roundNodes snaps ns = some (ns', b) → ∀ k,
      (dget ns k = none ∧ dget ns' k = none) ∨
      (∃ n n' b', dget ns k = some n ∧ dget ns' k = some n' ∧
        relaxNode snaps n = some (n', b')) := by
  intro ns
  induction ns with
  | nil =>
    intro ns' b h k
    simp only [roundNodes, Option.some.injEq, Prod.mk.injEq] at h
    rw [← h.1]
    exact Or.inl ⟨rfl, rfl⟩
  | cons p rest ih =>
    intro ns' b h k
    obtain ⟨n1, b1, rest', b2, hrx, hrn, hns, hb⟩ := roundNodes_cons_inv h
    subst hns
    by_cases hk : p.1 = k
    · right
      exact ⟨p.2, n1, b1, by simp [dget, hk], by simp [dget, hk], hrx⟩
    · have := ih rest' b2 hrn k
      simpa [dget, hk] using this

/-- A no-change round leaves every node identical. -/
theorem roundNodes_false (snaps : List (NodeId × Table)) :
    ∀ (ns ns' : List (NodeId × Node)),
      roundNodes snaps ns = some (ns', false) →
      ns' = ns ∧ ∀ p ∈ ns, relaxNode snaps p.2 = some (p.2, false) := by
  intro ns
  induction ns with
  | nil =>
    intro ns' h
    simp only [roundNodes, Option.some.injEq, Prod.mk.injEq] at h
    exact ⟨h.1.symm, by simp⟩
  | cons p rest ih =>
    intro ns' h
    obtain ⟨n1, b1, rest', b2, hrx, hrn, hns, hb⟩ := roundNodes_cons_inv h
    have hb1 : b1 = false := by
      cases b1
      · rfl
      · simp at hb
    have hb2 : b2 = false := by
      cases b2
      · rfl
      · rw [hb1] at hb; simp at hb
    subst hb1
    subst hb2
    have hn1 : n1 = p.2 := by
      have := relaxAcc_false snaps p.2.neighbors p.2 n1 hrx
      exact this.1
    obtain ⟨h1, h2⟩ := ih rest' hrn
    subst hns
    constructor
    · rw [hn1, h1]
    · intro q hq
      rcases List.mem_cons.mp hq with rfl | hq2
      · rw [hn1] at hrx
        exact hrx
      · exact h2 q hq2

/-- Step 2 preserves the per-node invariant for every stored node. -/
theorem roundNodes_NodeOk {adj : NodeId → LinkMap} {names : List NodeId}
    (snaps : List (NodeId × Table))
    (hsn : ∀ nb t, dget snaps nb = some t → TableOk adj names nb t) :
    ∀ (ns ns' : List (NodeId × Node)) (b : Bool),
      roundNodes snaps ns = some (ns', b) →
      (∀ p ∈ ns, NodeOk adj names p.1 p.2) →
      ∀ p ∈ ns', NodeOk adj names p.1 p.2 := by
  intro ns
  induction ns with
  | nil =>
    intro ns' b h _
    simp only [roundNodes, Option.some.injEq, Prod.mk.injEq] at h
    rw [← h.1]
    simp
  | cons p rest ih =>
    intro ns' b h hok q hq
    obtain ⟨n1, b1, rest', b2, hrx, hrn, hns, hb⟩ := roundNodes_cons_inv h
    subst hns
    rcases List.mem_cons.mp hq with rfl | hq2
    · exact relaxAcc_preserves_NodeOk snaps p.2.neighbors p.2 false n1 b1 hrx
        (hok p (List.mem_cons_self _ _))
        (fun r _ t ht => hsn r.1 t ht)
    · exact ih rest' b2 hrn (fun r hr => hok r (List.mem_cons_of_mem _ hr)) q hq2

/-- Step 2 succeeds under the invariant. -/
theorem roundNodes_isSome {adj : NodeId → LinkMap} {names : List NodeId}
    (snaps : List (NodeId × Table)) (hadj : AdjOk adj names)
    (hsome : ∀ nb ∈ names, (dget snaps nb).isSome) :
    ∀ (ns : List (NodeId × Node)),
      (∀ p ∈ ns, NodeOk adj names p.1 p.2) →
      (roundNodes snaps ns).isSome := by
  intro ns
  induction ns with
  | nil => intro _; simp [roundNodes]
  | cons p rest ih =>
    intro hok
    have hokp := hok p (List.mem_cons_self _ _)
    have hrx : (relaxNode snaps p.2).isSome := by
      apply relaxAcc_isSome snaps p.2.neighbors p.2 false
      · intro q hq
        apply hsome q.1
        have : q ∈ adj p.1 := hokp.2.1 ▸ hq
        exact (hadj p.1).2 q this
      · intro q hq
        rw [dget_isSome_iff]
        exact List.mem_map.mpr ⟨q, hq, rfl⟩
    obtain ⟨r, hr⟩ := Option.isSome_iff_exists.mp hrx
    obtain ⟨n1, b1⟩ := r
    have hrn := ih (fun q hq => hok q (List.mem_cons_of_mem _ hq))
    obtain ⟨r2, hr2⟩ := Option.isSome_iff_exists.mp hrn
    obtain ⟨rest', b2⟩ := r2
    rw [roundNodes, hr, hr2]
    simp

/-- Unfolding a successful round. -/
theorem round_inv {net net' : Network} {b : Bool}
    (h : net.round = some (net', b)) :
    roundNodes net.sent_tables net.nodes = some (net'.nodes, b) := by
  unfold Network.round at h
  cases hrn : roundNodes net.sent_tables net.nodes with
  | none => rw [hrn] at h; exact absurd h (by simp)
  | some r =>
    obtain ⟨ns, b2⟩ := r
    rw [hrn] at h
    simp only [Option.some.injEq, Prod.mk.injEq] at h
    rw [← h.1, h.2]

/-- A round preserves the network invariant. -/
theorem round_NetOk {adj : NodeId → LinkMap} {names : List NodeId}
    {net net' : Network} {b : Bool} (hok : NetOk adj names net)
    (h : net.round = some (net', b)) : NetOk adj names net' := by
  have hrn := round_inv h
  have hkeys := roundNodes_keys net.sent_tables net.nodes net'.nodes b hrn
  refine ⟨?_, ?_, ?_⟩
  · unfold Network.names
    rw [hkeys]
    exact hok.1
  · rw [hkeys]
    exact hok.2.1
  · exact roundNodes_NodeOk net.sent_tables (sent_tables_TableOk hok)
      net.nodes net'.nodes b hrn hok.2.2

/-- A round succeeds under the invariant. -/
theorem round_isSome {adj : NodeId → LinkMap} {names : List NodeId} {net : Network}
    (hadj : AdjOk adj names) (hok : NetOk adj names net) :
    net.round.isSome := by
  unfold Network.round
  have := roundNodes_isSome net.sent_tables hadj
    (fun nb hnb => sent_tables_isSome hok nb hnb) net.nodes hok.2.2
  cases h : roundNodes net.sent_tables net.nodes with
  | none => rw [h] at this; simp at this
  | some r => simp

/-- A no-change round is the identity on the network. -/
theorem round_false_eq {net net' : Network} (h : net.round = some (net', false)) :
    net' = net := by
  have hrn := round_inv h
  have := (roundNodes_false net.sent_tables net.nodes net'.nodes hrn).1
  cases net'
  cases net
  simp_all

theorem costAt_eq_tcost (net : Network) (A d : NodeId) :
    net.costAt A d = tcost (net.tableOf A) d := rfl

theorem tableOf_eq {net : Network} {k : NodeId} {n : Node}
    (h : dget net.nodes k = some n) : net.tableOf k = n.routing_table := by
  unfold Network.tableOf
  rw [h]

/-- Under the invariant every name resolves to a stored node. -/
theorem node_of_name {adj : NodeId → LinkMap} {names : List NodeId} {net : Network}
    (hok : NetOk adj names net) {A : NodeId} (hA : A ∈ names) :
    ∃ n, dget net.nodes A = some n ∧ NodeOk adj names A n := by
  have : (dget net.nodes A).isSome := by
    rw [dget_isSome_iff]
    rw [← hok.1] at hA
    exact hA
  cases h : dget net.nodes A with
  | none => rw [h] at this; simp at this
  | some n => exact ⟨n, rfl, hok.2.2 (A, n) (dget_mem h)⟩

/-- The self cost under the invariant. -/
theorem costAt_self {adj : NodeId → LinkMap} {names : List NodeId} {net : Network}
    (hok : NetOk adj names net) {A : NodeId} (hA : A ∈ names) :
    net.costAt A A = some 0 := by
  obtain ⟨n, hn, hokn⟩ := node_of_name hok hA
  rw [costAt_eq_tcost, tableOf_eq hn]
  unfold tcost
  rw [hokn.2.2.2.2.1]
  rfl

/-- The Bellman optimality conditions extracted from a no-change round. -/
theorem fix_of_round_false {adj : NodeId → LinkMap} {names : List NodeId}
    {net : Network} (hadj : AdjOk adj names) (hok : NetOk adj names net)
    (h : net.round = some (net, false)) :
    ∀ A ∈ names, ∀ d ∈ names, ¬ d = A → ∀ p ∈ adj A,
      cleC (net.costAt A d) (addC p.2 (net.costAt p.1 d)) = true := by
  intro A hA d hd hdA p hp
  have hrn := round_inv h
  have hfalse := (roundNodes_false net.sent_tables net.nodes net.nodes hrn).2
  obtain ⟨nA, hnA, hokA⟩ := node_of_name hok hA
  have hrx := hfalse (A, nA) (dget_mem hnA)
  have hupd := (relaxAcc_false net.sent_tables nA.neighbors nA nA hrx).2
  have hpA : p ∈ nA.neighbors := by rw [hokA.2.1]; exact hp
  obtain ⟨t, hsnp, hup⟩ := hupd p hpA
  -- the snapshot is the neighbor's current table
  obtain ⟨nb, hnnb, hoknb⟩ := node_of_name hok ((hadj A).2 p hp)
  have ht : t = nb.routing_table := by
    rw [sent_tables_dget hok, hnnb] at hsnp
    simpa using hsnp.symm
  -- the entry of the snapshot at destination d
  have hdt : (dget t d).isSome := by
    rw [ht]
    rw [hoknb.2.2.2.1 d]
    exact hd
  obtain ⟨e, he⟩ := Option.isSome_iff_exists.mp hdt
  -- the link cost recorded for this neighbor
  obtain ⟨w, hw, _, _, _, hbflag⟩ := update_inv hup
  have hwp : w = p.2 := by
    rw [hokA.2.1] at hw
    have := dget_of_mem_nodup (hadj A).1 hp
    rw [hw] at this
    simpa using this
  -- the update changed nothing: no received item improves
  have hany : t.any (improves nA.name w nA.routing_table) = false := by
    rw [← relaxFold_flag_iff nA.name p.1 w t nA.routing_table, ← hbflag]
  have himp : improves nA.name w nA.routing_table (d, e) = false := by
    rw [List.any_eq_false] at hany
    exact Bool.eq_false_iff.mpr (hany (d, e) (dget_mem he))
  have hdnm : ¬ d = nA.name := by
    rw [hokA.1]
    exact hdA
  rw [improves, if_neg hdnm] at himp
  have hcle := cleC_of_not_bltC himp
  have h1 : net.costAt A d = tcost nA.routing_table d := by
    rw [costAt_eq_tcost, tableOf_eq hnA]
  have h2 : net.costAt p.1 d = e.1 := by
    rw [costAt_eq_tcost, tableOf_eq hnnb]
    unfold tcost
    rw [← ht, he]
    rfl
  rw [h1, h2, ← hwp]
  exact hcle

/-- At a fixpoint every recorded cost is below every level of the reference
distance. -/
theorem fix_upper {adj : NodeId → LinkMap} {names : List NodeId} {net : Network}
    (hadj : AdjOk adj names) (hok : NetOk adj names net)
    (hfix : ∀ A ∈ names, ∀ d ∈ names, ¬ d = A → ∀ p ∈ adj A,
      cleC (net.costAt A d) (addC p.2 (net.costAt p.1 d)) = true) :
    ∀ (k : Nat), ∀ A ∈ names, ∀ d ∈ names,
      cleC (net.costAt A d) (distUpTo adj k A d) = true := by
  intro k
  induction k with
  | zero =>
    intro A hA d hd
    rw [distUpTo]
    by_cases hAd : A = d
    · rw [if_pos hAd, ← hAd, costAt_self hok hA]
      exact cleC_refl _
    · rw [if_neg hAd]
      exact cleC_none_right _
  | succ k ih =>
    intro A hA d hd
    rw [distUpTo, cleC_cmin_iff]
    refine ⟨ih A hA d hd, ?_⟩
    apply cleC_minOver_intro
    intro p hp
    by_cases hdA : d = A
    · rw [hdA, costAt_self hok hA]
      exact cleC_zero_left _
    · refine cleC_trans (hfix A hA d hd hdA p hp) ?_
      exact addC_mono p.2 (ih p.1 ((hadj A).2 p hp) d hd)

/-- Every finite recorded cost is the cost of an actual walk. -/
theorem sound_walk {adj : NodeId → LinkMap} {names : List NodeId} {net : Network}
    (hok : NetOk adj names net) {A d : NodeId} (hA : A ∈ names) (c : Nat)
    (hc : net.costAt A d = some c) :
    ∃ l, IsWalkFrom A d l ∧ chainCost adj l = some c := by
  obtain ⟨n, hn, hokn⟩ := node_of_name hok hA
  rw [costAt_eq_tcost, tableOf_eq hn] at hc
  unfold tcost at hc
  cases he : dget n.routing_table d with
  | none => rw [he] at hc; simp at hc
  | some e =>
    rw [he] at hc
    simp only [Option.getD_some] at hc
    have hok2 := hokn.2.2.2.2.2 d e he
    obtain ⟨e1, e2⟩ := e
    simp only at hc
    subst hc
    by_cases hdA : d = A
    · rw [EntryOk_some_fst, if_pos hdA] at hok2
      refine ⟨[A], ⟨rfl, by simp [hdA]⟩, ?_⟩
      rw [chainCost_single, hok2.1]
    · rw [EntryOk_some_fst, if_neg hdA] at hok2
      obtain ⟨nb, l, _, hwalk, hcost⟩ := hok2
      exact ⟨A :: nb :: l, hwalk, hcost⟩

/-- At a fixpoint every recorded cost is exactly the reference shortest-path
cost at level (number of nodes). -/
theorem converged_costs {adj : NodeId → LinkMap} {names : List NodeId}
    {net : Network} (hadj : AdjOk adj names) (hok : NetOk adj names net)
    (hfix : ∀ A ∈ names, ∀ d ∈ names, ¬ d = A → ∀ p ∈ adj A,
      cleC (net.costAt A d) (addC p.2 (net.costAt p.1 d)) = true) :
    ∀ A ∈ names, ∀ d ∈ names,
      net.costAt A d = distUpTo adj names.length A d := by
  intro A hA d hd
  have hub := fix_upper hadj hok hfix names.length A hA d hd
  cases hc : net.costAt A d with
  | none =>
    rw [hc] at hub
    rw [cleC_none_left hub]
  | some c =>
    obtain ⟨l, hw, hcost⟩ := sound_walk hok hA c hc
    have hlb := distUpTo_names_le_walk adj names (fun k => (hadj k).2)
      A d hA l c hw hcost
    rw [hc] at hub
    exact cleC_antisymm hub hlb

/-! ## The convergence loop reaches a no-change fixpoint state -/

/-- Whatever state the fueled loop returns satisfies the invariant and is a
fixpoint of the round. -/
theorem dvrLoop_succ_some {net n1 : Network} {b : Bool} (fuel : Nat)
    (hr : net.round = some (n1, b)) :
    dvrLoop (fuel + 1) net = if b then dvrLoop fuel n1 else some n1 := by
  simp [dvrLoop, hr]

theorem dvrLoop_inv {adj : NodeId → LinkMap} {names : List NodeId}
    (hadj : AdjOk adj names) :
    ∀ (fuel : Nat) (net net' : Network), NetOk adj names net →
      dvrLoop fuel net = some net' →
      NetOk adj names net' ∧ net'.round = some (net', false) := by
  intro fuel
  induction fuel with
  | zero =>
    intro net net' _ h
    exact absurd h (by simp [dvrLoop])
  | succ fuel ih =>
    intro net net' hok h
    cases hr : net.round with
    | none =>
      rw [dvrLoop, hr] at h
      exact absurd h (by simp)
    | some r =>
      obtain ⟨n1, b⟩ := r
      rw [dvrLoop_succ_some fuel hr] at h
      cases b with
      | true =>
        rw [if_pos rfl] at h
        exact ih n1 net' (round_NetOk hok hr) h
      | false =>
        rw [if_neg (by simp)] at h
        simp only [Option.some.injEq] at h
        subst h
        have hn1 : n1 = net := round_false_eq hr
        subst hn1
        exact ⟨hok, hr⟩

/-! ## Well-formedness of a constructed network and initialization -/

/-- Well-formedness of a network as produced by topology construction
(Network.add_link calls on an empty network): unique node keys, names that
match the keys, unique neighbor keys, and routing tables that hold exactly
the direct entries (cost, neighbor) written by Node.add_neighbor. -/
def Network.WF (net : Network) : Prop :=
  (net.nodes.map Prod.fst).Nodup ∧
  ∀ p ∈ net.nodes,
    p.2.name = p.1 ∧
    (p.2.neighbors.map Prod.fst).Nodup ∧
    (p.2.routing_table.map Prod.fst).Nodup ∧
    (∀ q ∈ p.2.neighbors, q.1 ∈ net.names) ∧
    (∀ q ∈ p.2.neighbors, (dget p.2.routing_table q.1).isSome) ∧
    (∀ q ∈ p.2.routing_table,
      q.2.2 = some q.1 ∧ dget p.2.neighbors q.1 = q.2.1 ∧ q.2.1.isSome)

/-- The links are symmetric (the network is undirected): whenever one
endpoint records the link, the other endpoint records it at the same cost. -/
def Network.Symm (net : Network) : Prop :=
  ∀ p ∈ net.nodes, ∀ q ∈ p.2.neighbors, dget (net.adjOf q.1) p.1 = some q.2

/-- All link costs are positive. -/
def Network.PosCosts (net : Network) : Prop :=
  ∀ p ∈ net.nodes, ∀ q ∈ p.2.neighbors, 0 < q.2

/-- In a well-formed network the routing tables are exactly the direct
neighbor entries. -/
theorem WF_table_dget {net : Network} (hWF : net.WF) {p : NodeId × Node}
    (hp : p ∈ net.nodes) (d : NodeId) :
    dget p.2.routing_table d =
      (dget p.2.neighbors d).map (fun w => (some w, some d)) := by
  obtain ⟨_, hnodes⟩ := hWF
  obtain ⟨_, _, _, _, hn2t, ht2n⟩ := hnodes p hp
  cases he : dget p.2.routing_table d with
  | some e =>
    obtain ⟨hhop, hcost, hfin⟩ := ht2n (d, e) (dget_mem he)
    obtain ⟨e1, e2⟩ := e
    simp only at hhop hcost hfin
    obtain ⟨w, hww⟩ := Option.isSome_iff_exists.mp hfin
    subst hww
    subst hhop
    rw [hcost]
    simp
  | none =>
    cases hnb : dget p.2.neighbors d with
    | none => simp
    | some w =>
      have := hn2t (d, w) (dget_mem hnb)
      simp only at this
      rw [he] at this
      simp at this

/-- AdjOk holds for the adjacency read off a well-formed network. -/
theorem WF_AdjOk {net : Network} (hWF : net.WF) : AdjOk net.adjOf net.names := by
  intro k
  unfold Network.adjOf
  cases hk : dget net.nodes k with
  | none => simp
  | some n =>
    have hmem := dget_mem hk
    obtain ⟨_, hnodes⟩ := hWF
    obtain ⟨_, hnd, _, hsub, _, _⟩ := hnodes (k, n) hmem
    exact ⟨hnd, hsub⟩

/-- Reading the table built by the initialization fold. -/
theorem initFold_dget (nm : NodeId) :
    ∀ (all : List NodeId) (t : Table) (d : NodeId),
      dget (all.foldl (initStep nm) t) d =
        match dget t d with
        | some e => some e
        | none => if d ∈ all ∧ ¬ d = nm then some (none, none) else none := by
  intro all
  induction all with
  | nil =>
    intro t d
    cases h : dget t d <;> simp [h]
  | cons a rest ih =>
    intro t d
    rw [List.foldl_cons]
    rw [ih (initStep nm t a) d]
    unfold initStep
    by_cases ha : a ≠ nm ∧ dget t a = none
    · rw [if_pos ha]
      by_cases had : a = d
      · subst had
        rw [dget_dset_self, ha.2]
        have : a ∈ a :: rest ∧ ¬ a = nm := ⟨List.mem_cons_self _ _, ha.1⟩
        simp [this]
      · rw [dget_dset_ne t a d _ had]
        cases h : dget t d with
        | some e => simp
        | none =>
          simp only
          by_cases hdr : d ∈ rest ∧ ¬ d = nm
          · rw [if_pos hdr, if_pos ⟨List.mem_cons_of_mem _ hdr.1, hdr.2⟩]
          · rw [if_neg hdr]
            have : ¬ (d ∈ a :: rest ∧ ¬ d = nm) := by
              intro hcon
              rcases List.mem_cons.mp hcon.1 with h1 | h1
              · exact had h1.symm
              · exact hdr ⟨h1, hcon.2⟩
            rw [if_neg this]
    · rw [if_neg ha]
      cases h : dget t d with
      | some e => simp
      | none =>
        simp only
        by_cases hdr : d ∈ rest ∧ ¬ d = nm
        · rw [if_pos hdr, if_pos ⟨List.mem_cons_of_mem _ hdr.1, hdr.2⟩]
        · rw [if_neg hdr]
          by_cases hda : d ∈ a :: rest ∧ ¬ d = nm
          · rcases List.mem_cons.mp hda.1 with h1 | h1
            · subst h1
              rw [not_and_or] at ha
              rcases ha with ha | ha
              · simp only [ne_eq, not_not] at ha
                exact absurd ha hda.2
              · rw [h] at ha
                simp at ha
            · exact absurd ⟨h1, hda.2⟩ hdr
          · rw [if_neg hda]

/-- The initialization fold keeps unique keys. -/
theorem initFold_nodup (nm : NodeId) :
    ∀ (all : List NodeId) (t : Table), (t.map Prod.fst).Nodup →
      ((all.foldl (initStep nm) t).map Prod.fst).Nodup := by
  intro all
  induction all with
  | nil => intro t h; exact h
  | cons a rest ih =>
    intro t h
    rw [List.foldl_cons]
    apply ih
    unfold initStep
    by_cases ha : a ≠ nm ∧ dget t a = none
    · rw [if_pos ha]
      exact nodup_keys_dset t a _ h
    · rw [if_neg ha]
      exact h

theorem init_node_name (n : Node) (all : List NodeId) :
    (n.initialize_routing_table all).name = n.name := rfl

theorem init_node_neighbors (n : Node) (all : List NodeId) :
    (n.initialize_routing_table all).neighbors = n.neighbors := rfl

theorem init_node_table (n : Node) (all : List NodeId) :
    (n.initialize_routing_table all).routing_table =
      dset (all.foldl (initStep n.name) n.routing_table) n.name
        (some 0, some n.name) := rfl

theorem init_nodes (net : Network) :
    net.initialize_routing_tables.nodes =
      net.nodes.map (fun p => (p.1, p.2.initialize_routing_table net.names)) := rfl

theorem init_names (net : Network) :
    net.initialize_routing_tables.names = net.names := by
  unfold Network.names
  rw [init_nodes]
  rw [List.map_map]
  rfl

theorem initFold_dget_some (nm : NodeId) (all : List NodeId) (t : Table)
    (d : NodeId) (e : TblEntry) (h : dget t d = some e) :
    dget (all.foldl (initStep nm) t) d = some e := by
  rw [initFold_dget nm all t d]
  split
  · rename_i e2 heq
    rw [h] at heq
    simpa using heq.symm
  · rename_i heq
    rw [h] at heq
    exact absurd heq (by simp)

theorem initFold_dget_none (nm : NodeId) (all : List NodeId) (t : Table)
    (d : NodeId) (h : dget t d = none) :
    dget (all.foldl (initStep nm) t) d =
      if d ∈ all ∧ ¬ d = nm then some (none, none) else none := by
  rw [initFold_dget nm all t d]
  split
  · rename_i e2 heq
    rw [h] at heq
    exact absurd heq (by simp)
  · rfl

/-- After initialization of a well-formed network the full invariant holds,
with respect to the adjacency and name list of the original network. -/
theorem init_NetOk {net : Network} (hWF : net.WF) :
    NetOk net.adjOf net.names net.initialize_routing_tables := by
  refine ⟨init_names net, ?_, ?_⟩
  · have : net.initialize_routing_tables.nodes.map Prod.fst =
        net.nodes.map Prod.fst := by
      rw [init_nodes, List.map_map]
      rfl
    rw [this]
    exact hWF.1
  · intro p hp
    rw [init_nodes] at hp
    obtain ⟨p0, hp0, hpe⟩ := List.mem_map.mp hp
    obtain ⟨hname0, hndN, hndT, hsubN, hn2t, ht2n⟩ := hWF.2 p0 hp0
    have hmem0 : (p0.1, p0.2) ∈ net.nodes := by
      cases p0
      exact hp0
    have hget0 : dget net.nodes p0.1 = some p0.2 := dget_of_mem_nodup hWF.1 hmem0
    have hadjp : net.adjOf p0.1 = p0.2.neighbors := by
      unfold Network.adjOf
      rw [hget0]
    have hnames0 : p0.1 ∈ net.names := List.mem_map.mpr ⟨p0, hp0, rfl⟩
    subst hpe
    refine ⟨(init_node_name p0.2 net.names).trans hname0, ?_, ?_, ?_, ?_, ?_⟩
    · rw [init_node_neighbors, hadjp]
    · -- unique keys
      rw [init_node_table]
      apply nodup_keys_dset
      exact initFold_nodup p0.2.name net.names p0.2.routing_table hndT
    · -- one entry per name
      intro d
      rw [init_node_table]
      by_cases hdnm : p0.2.name = d
      · rw [← hdnm, dget_dset_self]
        simp only [Option.isSome_some, true_iff]
        rw [hname0]
        exact hnames0
      · rw [dget_dset_ne _ _ _ _ hdnm]
        cases ht0 : dget p0.2.routing_table d with
        | some e =>
          rw [initFold_dget_some p0.2.name net.names _ _ _ ht0]
          simp only [Option.isSome_some, true_iff]
          rw [WF_table_dget hWF hp0 d] at ht0
          cases hnb : dget p0.2.neighbors d with
          | none => rw [hnb] at ht0; simp at ht0
          | some w => exact hsubN (d, w) (dget_mem hnb)
        | none =>
          rw [initFold_dget_none p0.2.name net.names _ _ ht0]
          by_cases hdn : d ∈ net.names ∧ ¬ d = p0.2.name
          · rw [if_pos hdn]
            simp [hdn.1]
          · rw [if_neg hdn]
            simp only [Option.isSome_none, Bool.false_eq_true, false_iff]
            intro hcon
            exact hdn ⟨hcon, fun he => hdnm he.symm⟩
    · -- the self entry
      rw [init_node_table, hname0, dget_dset_self]
    · -- every entry is sound
      intro d e hde
      rw [init_node_table] at hde
      by_cases hdnm : p0.2.name = d
      · have hd2 : d = p0.2.name := hdnm.symm
        subst hd2
        rw [dget_dset_self] at hde
        simp only [Option.some.injEq] at hde
        subst hde
        rw [hname0, EntryOk_some_fst, if_pos rfl]
        exact ⟨rfl, rfl⟩
      · rw [dget_dset_ne _ _ _ _ hdnm] at hde
        cases ht0 : dget p0.2.routing_table d with
        | some e0 =>
          rw [initFold_dget_some p0.2.name net.names _ _ _ ht0] at hde
          simp only [Option.some.injEq] at hde
          subst hde
          rw [WF_table_dget hWF hp0 d] at ht0
          cases hnb : dget p0.2.neighbors d with
          | none => rw [hnb] at ht0; simp at ht0
          | some w =>
            rw [hnb] at ht0
            simp only [Option.map_some', Option.some.injEq] at ht0
            rw [← ht0]
            have hdk : ¬ d = p0.1 := by
              rw [← hname0]
              exact fun he => hdnm he.symm
            rw [EntryOk_some_fst, if_neg hdk]
            refine ⟨d, [], rfl, ⟨rfl, by simp⟩, ?_⟩
            have hadj : dget (net.adjOf p0.1) d = some w := by
              rw [hadjp]
              exact hnb
            rw [chainCost_edge_some net.adjOf [] hadj, chainCost_single]
            simp [addC]
        | none =>
          rw [initFold_dget_none p0.2.name net.names _ _ ht0] at hde
          by_cases hdn : d ∈ net.names ∧ ¬ d = p0.2.name
          · rw [if_pos hdn] at hde
            simp only [Option.some.injEq] at hde
            subst hde
            rw [EntryOk_none_fst]
          · rw [if_neg hdn] at hde
            exact absurd hde (by simp)

/-! ## Termination of the convergence loop

Measure: per table, the pair (number of infinite entries, sum of the finite
costs), compared lexicographically and summed over the network.  Every
changing round strictly decreases the measure. -/

/-- 1 when the cost is infinite, 0 otherwise. -/
def cNone (x : Cost) : Nat := if x = none then 1 else 0

/-- The finite part of a cost. -/
def cFin (x : Cost) : Nat := x.getD 0

/-- Number of infinite entries of a table. -/
def tblNone (t : Table) : Nat := (t.map (fun p => cNone p.2.1)).sum

/-- Sum of the finite costs of a table. -/
def tblFin (t : Table) : Nat := (t.map (fun p => cFin p.2.1)).sum

/-- Number of infinite entries over a node list. -/
def netNoneL (ns : List (NodeId × Node)) : Nat :=
  (ns.map (fun p => tblNone p.2.routing_table)).sum

/-- Sum of the finite costs over a node list. -/
def netFinL (ns : List (NodeId × Node)) : Nat :=
  (ns.map (fun p => tblFin p.2.routing_table)).sum

theorem cNone_le {x y : Cost} (h : cleC x y = true) : cNone x ≤ cNone y := by
  cases x <;> cases y <;> simp [cleC, cNone] at h ⊢

theorem cFin_le {x y : Cost} (h : cleC x y = true) (he : cNone x = cNone y) :
    cFin x ≤ cFin y := by
  cases x <;> cases y <;> simp [cleC, cNone, cFin] at h he ⊢
  omega

theorem blt_measure {x y : Cost} (h : bltC x y = true) :
    cNone x < cNone y ∨ (cNone x = cNone y ∧ cFin x < cFin y) := by
  cases x <;> cases y <;> simp [bltC, cNone, cFin] at h ⊢
  omega

theorem tcost_nil (d : NodeId) : tcost ([] : Table) d = none := rfl

theorem tcost_head (d0 : NodeId) (e0 : TblEntry) (r : Table) :
    tcost ((d0, e0) :: r) d0 = e0.1 := by
  unfold tcost
  simp [dget]

theorem tcost_tail {d0 d : NodeId} (e0 : TblEntry) (r : Table) (h : ¬ d0 = d) :
    tcost ((d0, e0) :: r) d = tcost r d := by
  unfold tcost
  simp [dget, h]

/-- Lexicographic decrease of the table measure from pointwise cost
comparison. -/
theorem tbl_measure :
    ∀ (t t' : Table), t'.map Prod.fst = t.map Prod.fst →
      (t.map Prod.fst).Nodup →
      (∀ d, cleC (tcost t' d) (tcost t d) = true) →
      tblNone t' ≤ tblNone t ∧
      (tblNone t' = tblNone t → tblFin t' ≤ tblFin t) ∧
      (∀ d, bltC (tcost t' d) (tcost t d) = true →
        tblNone t' < tblNone t ∨
        (tblNone t' = tblNone t ∧ tblFin t' < tblFin t)) := by
  intro t
  induction t with
  | nil =>
    intro t' hk _ _
    simp only [List.map_nil, List.map_eq_nil_iff] at hk
    subst hk
    refine ⟨Nat.le_refl _, fun _ => Nat.le_refl _, ?_⟩
    intro d hblt
    rw [tcost_nil] at hblt
    simp [bltC] at hblt
  | cons q r ih =>
    intro t' hk hnd hle
    obtain ⟨d0, e0⟩ := q
    cases t' with
    | nil => simp at hk
    | cons q' r' =>
      obtain ⟨d0', e0'⟩ := q'
      simp only [List.map_cons, List.cons.injEq] at hk
      obtain ⟨hd0, hkr⟩ := hk
      subst hd0
      simp only [List.map_cons, List.nodup_cons] at hnd
      obtain ⟨hd0r, hndr⟩ := hnd
      have hle0 : cleC e0'.1 e0.1 = true := by
        have := hle d0'
        rw [tcost_head, tcost_head] at this
        exact this
      have hler : ∀ d, cleC (tcost r' d) (tcost r d) = true := by
        intro d
        by_cases hdd : d0' = d
        · subst hdd
          have : dget r d0' = none := by
            rw [dget_eq_none_iff]
            exact hd0r
          unfold tcost
          rw [this]
          exact cleC_none_right _
        · have := hle d
          rw [tcost_tail e0' r' hdd, tcost_tail e0 r hdd] at this
          exact this
      obtain ⟨ih1, ih2, ih3⟩ := ih r' hkr hndr hler
      have hsum : tblNone ((d0', e0') :: r') = cNone e0'.1 + tblNone r' := by
        simp [tblNone]
      have hsum2 : tblNone ((d0', e0) :: r) = cNone e0.1 + tblNone r := by
        simp [tblNone]
      have hsum3 : tblFin ((d0', e0') :: r') = cFin e0'.1 + tblFin r' := by
        simp [tblFin]
      have hsum4 : tblFin ((d0', e0) :: r) = cFin e0.1 + tblFin r := by
        simp [tblFin]
      have hN0 : cNone e0'.1 ≤ cNone e0.1 := cNone_le hle0
      refine ⟨?_, ?_, ?_⟩
      · rw [hsum, hsum2]
        omega
      · rw [hsum, hsum2, hsum3, hsum4]
        intro heq
        have h1 : cNone e0'.1 = cNone e0.1 := by omega
        have h2 : tblNone r' = tblNone r := by omega
        have := cFin_le hle0 h1
        have := ih2 h2
        omega
      · intro d hblt
        rw [hsum, hsum2, hsum3, hsum4]
        by_cases hdd : d0' = d
        · subst hdd
          rw [tcost_head, tcost_head] at hblt
          rcases blt_measure hblt with hcase | hcase
          · left
            omega
          · rcases Nat.lt_or_ge (tblNone r') (tblNone r) with ht | ht
            · left
              omega
            · have heq : tblNone r' = tblNone r := Nat.le_antisymm ih1 ht
              right
              constructor
              · omega
              · have := ih2 heq
                omega
        · rw [tcost_tail e0' r' hdd, tcost_tail e0 r hdd] at hblt
          rcases ih3 d hblt with hcase | hcase
          · left
            omega
          · rcases Nat.lt_or_ge (cNone e0'.1) (cNone e0.1) with hh | hh
            · left
              omega
            · have heq : cNone e0'.1 = cNone e0.1 := Nat.le_antisymm hN0 hh
              right
              constructor
              · omega
              · have := cFin_le hle0 heq
                omega

/-- Lexicographic table-measure facts for one node's relaxation. -/
theorem relaxNode_measure {adj : NodeId → LinkMap} {names : List NodeId}
    {snaps : List (NodeId × Table)}
    (hsnaps : ∀ nb t, dget snaps nb = some t → TableOk adj names nb t)
    {k : NodeId} {node n' : Node} {b : Bool}
    (hok : NodeOk adj names k node) (h : relaxNode snaps node = some (n', b)) :
    tblNone n'.routing_table ≤ tblNone node.routing_table ∧
    (tblNone n'.routing_table = tblNone node.routing_table →
      tblFin n'.routing_table ≤ tblFin node.routing_table) ∧
    (b = true →
      tblNone n'.routing_table < tblNone node.routing_table ∨
      (tblNone n'.routing_table = tblNone node.routing_table ∧
        tblFin n'.routing_table < tblFin node.routing_table)) := by
  have hkeys : n'.routing_table.map Prod.fst = node.routing_table.map Prod.fst := by
    apply relaxAcc_keys snaps node.neighbors node false n' b h
    intro p _ t ht q hq
    have hq1 : q.1 ∈ names := by
      rw [← (hsnaps p.1 t ht).2.1 q.1, dget_isSome_iff]
      exact List.mem_map.mpr ⟨q, hq, rfl⟩
    rw [← dget_isSome_iff, hok.2.2.2.1]
    exact hq1
  have hle : ∀ d, cleC (tcost n'.routing_table d) (tcost node.routing_table d) = true :=
    relaxAcc_mono snaps node.neighbors node false n' b h
  obtain ⟨m1, m2, m3⟩ := tbl_measure node.routing_table n'.routing_table hkeys
    hok.2.2.1 hle
  refine ⟨m1, m2, ?_⟩
  intro hb
  subst hb
  obtain ⟨d, hd⟩ := relaxAcc_strict snaps node.neighbors node n'
    (fun p _ t ht => (hsnaps p.1 t ht).1) h
  exact m3 d hd

/-- Lexicographic decrease of the network measure over step 2. -/
theorem roundNodes_measure {adj : NodeId → LinkMap} {names : List NodeId}
    {snaps : List (NodeId × Table)}
    (hsnaps : ∀ nb t, dget snaps nb = some t → TableOk adj names nb t) :
    ∀ (ns ns' : List (NodeId × Node)) (b : Bool),
      (∀ p ∈ ns, NodeOk adj names p.1 p.2) →
      roundNodes snaps ns = some (ns', b) →
      netNoneL ns' ≤ netNoneL ns ∧
      (netNoneL ns' = netNoneL ns → netFinL ns' ≤ netFinL ns) ∧
      (b = true →
        netNoneL ns' < netNoneL ns ∨
        (netNoneL ns' = netNoneL ns ∧ netFinL ns' < netFinL ns)) := by
  intro ns
  induction ns with
  | nil =>
    intro ns' b _ h
    simp only [roundNodes, Option.some.injEq, Prod.mk.injEq] at h
    rw [← h.1, ← h.2]
    refine ⟨Nat.le_refl _, fun _ => Nat.le_refl _, ?_⟩
    intro hb
    simp at hb
  | cons p rest ih =>
    intro ns' b hok h
    obtain ⟨n1, b1, rest', b2, hrx, hrn, hns, hb⟩ := roundNodes_cons_inv h
    subst hns
    subst hb
    obtain ⟨h1, h2, h3⟩ := relaxNode_measure hsnaps
      (hok p (List.mem_cons_self _ _)) hrx
    obtain ⟨i1, i2, i3⟩ := ih rest' b2
      (fun q hq => hok q (List.mem_cons_of_mem _ hq)) hrn
    have hs1 : netNoneL ((p.1, n1) :: rest') = tblNone n1.routing_table + netNoneL rest' := by
      simp [netNoneL]
    have hs2 : netNoneL (p :: rest) = tblNone p.2.routing_table + netNoneL rest := by
      simp [netNoneL]
    have hs3 : netFinL ((p.1, n1) :: rest') = tblFin n1.routing_table + netFinL rest' := by
      simp [netFinL]
    have hs4 : netFinL (p :: rest) = tblFin p.2.routing_table + netFinL rest := by
      simp [netFinL]
    refine ⟨?_, ?_, ?_⟩
    · rw [hs1, hs2]
      omega
    · rw [hs1, hs2, hs3, hs4]
      intro heq
      have e1 : tblNone n1.routing_table = tblNone p.2.routing_table := by omega
      have e2 : netNoneL rest' = netNoneL rest := by omega
      have := h2 e1
      have := i2 e2
      omega
    · intro hb
      rw [hs1, hs2, hs3, hs4]
      rcases Bool.or_eq_true_iff.mp hb with hb1 | hb2
      · rcases h3 hb1 with hcase | hcase
        · left
          omega
        · rcases Nat.lt_or_ge (netNoneL rest') (netNoneL rest) with ht | ht
          · left
            omega
          · have heq : netNoneL rest' = netNoneL rest := Nat.le_antisymm i1 ht
            have := i2 heq
            right
            omega
      · rcases i3 hb2 with hcase | hcase
        · left
          omega
        · rcases Nat.lt_or_ge (tblNone n1.routing_table) (tblNone p.2.routing_table)
            with hh | hh
          · left
            omega
          · have heq : tblNone n1.routing_table = tblNone p.2.routing_table :=
              Nat.le_antisymm h1 hh
            have := h2 heq
            right
            omega

/-- Number of infinite entries of a whole network. -/
def netNone (net : Network) : Nat := netNoneL net.nodes

/-- Sum of the finite costs of a whole network. -/
def netFin (net : Network) : Nat := netFinL net.nodes

/-- A changing round strictly decreases the lexicographic network measure. -/
theorem round_measure {adj : NodeId → LinkMap} {names : List NodeId}
    {net net' : Network} (hok : NetOk adj names net)
    (h : net.round = some (net', true)) :
    netNone net' < netNone net ∨
    (netNone net' = netNone net ∧ netFin net' < netFin net) := by
  have hrn := round_inv h
  exact (roundNodes_measure (sent_tables_TableOk hok) net.nodes net'.nodes true
    hok.2.2 hrn).2.2 rfl

/-- From any state satisfying the invariant, some fuel lets the loop finish. -/
theorem dvrLoop_terminates {adj : NodeId → LinkMap} {names : List NodeId}
    (hadj : AdjOk adj names) :
    ∀ (net : Network), NetOk adj names net →
      ∃ fuel, (dvrLoop fuel net).isSome := by
  suffices h : ∀ (m1 : Nat), ∀ (m2 : Nat), ∀ (net : Network), NetOk adj names net →
      netNone net = m1 → netFin net = m2 → ∃ fuel, (dvrLoop fuel net).isSome by
    intro net hok
    exact h (netNone net) (netFin net) net hok rfl rfl
  intro m1
  induction m1 using Nat.strong_induction_on with
  | _ m1 ih1 =>
    intro m2
    induction m2 using Nat.strong_induction_on with
    | _ m2 ih2 =>
      intro net hok hm1 hm2
      have hsome := round_isSome hadj hok
      obtain ⟨r, hr⟩ := Option.isSome_iff_exists.mp hsome
      obtain ⟨n1, b⟩ := r
      cases b with
      | false =>
        refine ⟨1, ?_⟩
        rw [dvrLoop_succ_some 0 hr]
        simp
      | true =>
        have hok1 : NetOk adj names n1 := round_NetOk hok hr
        rcases round_measure hok hr with hlt | ⟨heq, hlt⟩
        · obtain ⟨f, hf⟩ := ih1 (netNone n1) (by omega) (netFin n1) n1 hok1 rfl rfl
          refine ⟨f + 1, ?_⟩
          rw [dvrLoop_succ_some f hr]
          simpa using hf
        · obtain ⟨f, hf⟩ := ih2 (netFin n1) (by omega) n1 hok1 (by omega) rfl
          refine ⟨f + 1, ?_⟩
          rw [dvrLoop_succ_some f hr]
          simpa using hf

/-! ## Assembled helper results for the claim statements -/

/-- Full pointwise characterization of one successful update call. -/
theorem update_char {n : Node} {nb : NodeId} {t : Table} {n' : Node} {b : Bool}
    {w : Nat} (hw : dget n.neighbors nb = some w) (hnd : (t.map Prod.fst).Nodup)
    (h : n.update_routing_table nb t = some (n', b)) :
    (∀ d, dget n'.routing_table d =
      match dget t d with
      | none => dget n.routing_table d
      | some qe =>
        if d = n.name then dget n.routing_table d
        else if bltC (addC w qe.1) (tcost n.routing_table d) then
          some (addC w qe.1, some nb)
        else dget n.routing_table d) ∧
    b = t.any (improves n.name w n.routing_table) := by
  obtain ⟨w2, hw2, hname, hnbr, htbl, hbflag⟩ := update_inv h
  have hww : w2 = w := by
    rw [hw] at hw2
    simpa using hw2.symm
  subst hww
  constructor
  · intro d
    rw [htbl]
    exact relaxFold_dget n.name nb w2 t hnd n.routing_table d
  · rw [hbflag, relaxFold_flag_iff]

/-- Each update leaves each entry alone or strictly decreases its cost. -/
theorem update_pointwise {n : Node} {nb : NodeId} {t : Table} {n' : Node} {b : Bool}
    (hnd : (t.map Prod.fst).Nodup) (h : n.update_routing_table nb t = some (n', b)) :
    ∀ d, dget n'.routing_table d = dget n.routing_table d ∨
      bltC (tcost n'.routing_table d) (tcost n.routing_table d) = true := by
  obtain ⟨w, hw, hname, hnbr, htbl, hbflag⟩ := update_inv h
  intro d
  cases hs : dget t d with
  | none =>
    left
    rw [htbl]
    exact relaxFold_dget_absent n.name nb w t hnd n.routing_table d hs
  | some qe =>
    by_cases hdnm : d = n.name
    · left
      rw [htbl, hdnm, relaxFold_self, ← hdnm]
    · by_cases hblt : bltC (addC w qe.1) (tcost n.routing_table d) = true
      · right
        have : dget n'.routing_table d = some (addC w qe.1, some nb) := by
          rw [htbl, relaxFold_dget_present n.name nb w t hnd n.routing_table d qe hs hdnm,
            if_pos hblt]
        unfold tcost
        rw [this]
        exact hblt
      · left
        rw [htbl, relaxFold_dget_present n.name nb w t hnd n.routing_table d qe hs hdnm,
          if_neg hblt]

/-- Round-level cost monotonicity. -/
theorem round_mono {net net' : Network} {b : Bool} (h : net.round = some (net', b))
    (A d : NodeId) : cleC (net'.costAt A d) (net.costAt A d) = true := by
  have hrn := round_inv h
  rcases roundNodes_dget net.sent_tables net.nodes net'.nodes b hrn A with
    ⟨h1, h2⟩ | ⟨n, n', b', h1, h2, h3⟩
  · rw [costAt_eq_tcost, costAt_eq_tcost]
    unfold Network.tableOf
    rw [h1, h2]
    exact cleC_refl _
  · rw [costAt_eq_tcost, costAt_eq_tcost, tableOf_eq h2, tableOf_eq h1]
    exact relaxAcc_mono net.sent_tables n.neighbors n false n' b' h3 d

/-- Whatever state distance_vector_routing returns satisfies the invariant, is
a fixpoint of the round, and records exactly the reference distances. -/
theorem dvr_final_facts {net : Network} (hWF : net.WF) {fuel : Nat}
    {net' : Network} (hrun : net.distance_vector_routing fuel = some net') :
    NetOk net.adjOf net.names net' ∧ net'.round = some (net', false) ∧
    ∀ A ∈ net.names, ∀ B ∈ net.names,
      net'.costAt A B = distUpTo net.adjOf net.names.length A B := by
  have hadj := WF_AdjOk hWF
  unfold Network.distance_vector_routing at hrun
  obtain ⟨hok, hfixr⟩ := dvrLoop_inv hadj fuel _ net' (init_NetOk hWF) hrun
  have hfix := fix_of_round_false hadj hok hfixr
  exact ⟨hok, hfixr, converged_costs hadj hok hfix⟩

theorem mem_of_getLast?_eq {l : List NodeId} {a : NodeId}
    (h : l.getLast? = some a) : a ∈ l := by
  induction l with
  | nil => simp at h
  | cons x rest ih =>
    cases rest with
    | nil =>
      simp only [List.getLast?_singleton, Option.some.injEq] at h
      simp [h]
    | cons y t =>
      rw [List.getLast?_cons_cons] at h
      exact List.mem_cons_of_mem _ (ih h)

/-- A finite-cost vertex sequence starting inside a closed vertex set stays
inside it. -/
theorem chain_mem_closed (adj : NodeId → LinkMap) (S : List NodeId)
    (hcl : ∀ k ∈ S, ∀ p ∈ adj k, p.1 ∈ S) :
    ∀ (l : List NodeId) (a : NodeId) (c : Nat), l.head? = some a → a ∈ S →
      chainCost adj l = some c → ∀ v ∈ l, v ∈ S := by
  intro l
  induction l with
  | nil => intro a c hh; simp at hh
  | cons x rest ih =>
    intro a c hh ha hc v hv
    simp only [List.head?_cons, Option.some.injEq] at hh
    subst hh
    cases rest with
    | nil => rcases List.mem_singleton.mp hv with rfl; exact ha
    | cons y rest' =>
      rw [chainCost_cons_cons] at hc
      cases hxy : dget (adj x) y with
      | none => rw [hxy] at hc; simp at hc
      | some w =>
        rw [hxy] at hc
        cases hc2 : chainCost adj (y :: rest') with
        | none => rw [hc2] at hc; simp [addC] at hc
        | some c2 =>
          have hy : y ∈ S := hcl x ha (y, w) (dget_mem hxy)
          rcases List.mem_cons.mp hv with rfl | hv
          · exact ha
          · exact ih y c2 rfl hy hc2 v hv

/-! ## Concrete example data (the network of the program's main function) -/

/-- The example network built by main: links A-B:1, A-C:4, B-C:2, B-D:5,
C-D:1. -/
def exNet : Network :=
  (((((Network.mk []).add_link "A" "B" 1).add_link "A" "C" 4).add_link
    "B" "C" 2).add_link "B" "D" 5).add_link "C" "D" 1

/-- The converged state of the example network. -/
def exFinal : Network :=
  { nodes := [
    ("A", Node.mk "A" [("B", 1), ("C", 4)]
      [("B", (some 1, some "B")), ("C", (some 3, some "B")),
       ("D", (some 4, some "B")), ("A", (some 0, some "A"))]),
    ("B", Node.mk "B" [("A", 1), ("C", 2), ("D", 5)]
      [("A", (some 1, some "A")), ("C", (some 2, some "C")),
       ("D", (some 3, some "C")), ("B", (some 0, some "B"))]),
    ("C", Node.mk "C" [("A", 4), ("B", 2), ("D", 1)]
      [("A", (some 3, some "B")), ("B", (some 2, some "B")),
       ("D", (some 1, some "D")), ("C", (some 0, some "C"))]),
    ("D", Node.mk "D" [("B", 5), ("C", 1)]
      [("B", (some 3, some "C")), ("C", (some 1, some "C")),
       ("A", (some 4, some "C")), ("D", (some 0, some "D"))])] }

/-- A single example node (node A of the example network after setup and
initialization). -/
def exNode : Node :=
  Node.mk "A" [("B", 1), ("C", 4)]
    [("B", (some 1, some "B")), ("C", (some 4, some "C")),
     ("A", (some 0, some "A")), ("D", (none, none))]

/-- An example received table (an advertisement of node B). -/
def exTbl : Table :=
  [("A", (some 1, some "A")), ("C", (some 2, some "C")),
   ("D", (some 5, some "D")), ("B", (some 0, some "B"))]

/-- The example node after relaxing against the example advertisement. -/
def exNode' : Node :=
  Node.mk "A" [("B", 1), ("C", 4)]
    [("B", (some 1, some "B")), ("C", (some 3, some "B")),
     ("A", (some 0, some "A")), ("D", (some 6, some "B"))]

/-- A disconnected example network: components {A, B} and {C, D}. -/
def exNet2 : Network :=
  ((Network.mk []).add_link "A" "B" 1).add_link "C" "D" 2

/-! ## Modelling a sequence of update calls on one node (for claim C3) -/

/-- The state of a node after one call of update_routing_table: the new state
on success, the unchanged state when the call raises (the KeyError of the
program is raised before any entry is written). -/
def applyUpd (n : Node) (nb : NodeId) (t : Table) : Node :=
  match n.update_routing_table nb t with
  | some (n', _) => n'
  | none => n

/-- The state of a node after a sequence of update_routing_table calls. -/
def applyUpdates (n : Node) : List (NodeId × Table) → Node
  | [] => n
  | u :: us => applyUpdates (applyUpd n u.1 u.2) us

theorem applyUpd_facts (n : Node) (nb : NodeId) (t : Table) :
    (applyUpd n nb t).name = n.name ∧
    dget (applyUpd n nb t).routing_table n.name = dget n.routing_table n.name := by
  unfold applyUpd
  cases h : n.update_routing_table nb t with
  | none => exact ⟨rfl, rfl⟩
  | some r =>
    obtain ⟨n', b⟩ := r
    obtain ⟨w, hw, hname, hnbr, htbl, hbflag⟩ := update_inv h
    refine ⟨hname, ?_⟩
    rw [htbl, relaxFold_self]

theorem applyUpdates_facts (us : List (NodeId × Table)) :
    ∀ (n : Node) (nm : NodeId), n.name = nm →
      (applyUpdates n us).name = nm ∧
      dget (applyUpdates n us).routing_table nm = dget n.routing_table nm := by
  induction us with
  | nil => intro n nm h; exact ⟨h, rfl⟩
  | cons u us ih =>
    intro n nm h
    obtain ⟨h1, h2⟩ := applyUpd_facts n u.1 u.2
    obtain ⟨h3, h4⟩ := ih (applyUpd n u.1 u.2) nm (h1.trans h)
    refine ⟨h3, ?_⟩
    rw [applyUpdates]
    rw [h4]
    rw [← h]
    exact h2

/-- Every neighbor relaxation performed in a round at a fixpoint state is a
no-change update of that node. -/
theorem round_fix_updates_false {net : Network}
    (h : net.round = some (net, false)) :
    ∀ p ∈ net.nodes, ∀ q ∈ p.2.neighbors, ∃ t,
      dget net.sent_tables q.1 = some t ∧
      p.2.update_routing_table q.1 t = some (p.2, false) := by
  have hrn := round_inv h
  have hfalse := (roundNodes_false net.sent_tables net.nodes net.nodes hrn).2
  intro p hp q hq
  exact (relaxAcc_false net.sent_tables p.2.neighbors p.2 p.2 (hfalse p hp)).2 q hq

/-! ## The claims -/

/-- C1: for every static undirected network with all-positive finite link
costs, after distance_vector_routing terminates, the cost recorded in node
A's routing table for destination B equals the true shortest-path cost from
A to B as computed by the reference all-pairs Bellman-Ford distance
(distUpTo at level: number of nodes), and the recorded next hop is a
neighbor of A that is the first hop of a walk from A to B of exactly that
least cost (a shortest path through that neighbor). -/
theorem dvr_shortest_path_correct (net : Network) (A B : NodeId)
    (hWF : net.WF) (hSym : net.Symm) (hPos : net.PosCosts)
    (hA : A ∈ net.names) (hB : B ∈ net.names) (fuel : Nat) (net' : Network)
    (hrun : net.distance_vector_routing fuel = some net') :
    ∃ c h, dget (net'.tableOf A) B = some (c, h) ∧
      c = distUpTo net.adjOf net.names.length A B ∧
      (∀ c0, c = some c0 → ¬ B = A → ∃ hb l, h = some hb ∧
        (dget (net.adjOf A) hb).isSome ∧
        IsWalkFrom A B (A :: hb :: l) ∧
        chainCost net.adjOf (A :: hb :: l) = some c0) := by
  obtain ⟨hok, hfixr, hcost⟩ := dvr_final_facts hWF hrun
  obtain ⟨n, hn, hokn⟩ := node_of_name hok hA
  have hBk : (dget n.routing_table B).isSome := (hokn.2.2.2.1 B).mpr hB
  obtain ⟨e, he⟩ := Option.isSome_iff_exists.mp hBk
  obtain ⟨c, h⟩ := e
  refine ⟨c, h, ?_, ?_, ?_⟩
  · rw [tableOf_eq hn]
    exact he
  · have hce := hcost A hA B hB
    rw [costAt_eq_tcost, tableOf_eq hn] at hce
    unfold tcost at hce
    rw [he] at hce
    simpa using hce
  · intro c0 hc0 hBA
    subst hc0
    have hok2 := hokn.2.2.2.2.2 B (some c0, h) he
    rw [EntryOk_some_fst, if_neg hBA] at hok2
    obtain ⟨hb, l, hh, hwalk, hcost2⟩ := hok2
    refine ⟨hb, l, hh, ?_, hwalk, hcost2⟩
    rw [chainCost_cons_cons] at hcost2
    cases hE : dget (net.adjOf A) hb with
    | none => rw [hE] at hcost2; simp at hcost2
    | some w => simp

/-- C2: for every finite network with non-negative finite link costs (link
costs are natural numbers here), the convergence loop terminates: some fuel
makes distance_vector_routing return a state, the round on that state
changes nothing, and in that round every single update_routing_table call
returns False. -/
theorem dvr_terminates (net : Network) (hWF : net.WF) :
    ∃ fuel net', net.distance_vector_routing fuel = some net' ∧
      net'.round = some (net', false) ∧
      ∀ p ∈ net'.nodes, ∀ q ∈ p.2.neighbors, ∃ t,
        dget net'.sent_tables q.1 = some t ∧
        p.2.update_routing_table q.1 t = some (p.2, false) := by
  have hadj := WF_AdjOk hWF
  obtain ⟨fuel, hsome⟩ :=
    dvrLoop_terminates hadj net.initialize_routing_tables (init_NetOk hWF)
  obtain ⟨net', hnet'⟩ := Option.isSome_iff_exists.mp hsome
  obtain ⟨hok, hfix⟩ := dvrLoop_inv hadj fuel _ net' (init_NetOk hWF) hnet'
  exact ⟨fuel, net', hnet', hfix, round_fix_updates_false hfix⟩

/-- C3: for every node N, after initialize_routing_table has been called on
N, and after any further sequence of update_routing_table calls (failing
calls leave the state unchanged), N's routing table entry for its own
identifier is (0, N). -/
theorem self_entry_invariant (n : Node) (all_nodes : List NodeId)
    (us : List (NodeId × Table)) :
    dget ((applyUpdates (n.initialize_routing_table all_nodes) us).routing_table)
      n.name = some (some 0, some n.name) := by
  have hinit : dget (n.initialize_routing_table all_nodes).routing_table n.name
      = some (some 0, some n.name) := by
    rw [init_node_table, dget_dset_self]
  obtain ⟨h1, h2⟩ := applyUpdates_facts us (n.initialize_routing_table all_nodes)
    n.name (init_node_name n all_nodes)
  rw [h2, hinit]

/-- C4: recorded costs never increase: each update_routing_table call leaves
an entry unchanged or strictly decreases its cost, and across a whole round
of the convergence loop every recorded cost is non-increasing. -/
theorem cost_monotone_nonincreasing (n : Node) (nb : NodeId) (t : Table)
    (n' : Node) (b : Bool) (net net' : Network) (bb : Bool)
    (hnd : (t.map Prod.fst).Nodup)
    (hup : n.update_routing_table nb t = some (n', b))
    (hround : net.round = some (net', bb)) :
    (∀ d, dget n'.routing_table d = dget n.routing_table d ∨
      bltC (tcost n'.routing_table d) (tcost n.routing_table d) = true) ∧
    (∀ A d, cleC (net'.costAt A d) (net.costAt A d) = true) :=
  ⟨update_pointwise hnd hup, fun A d => round_mono hround A d⟩

/-- C5: update_routing_table replaces an entry only when the candidate cost
(link cost plus advertised cost, a missing entry counting as infinity with
no hop) is strictly smaller than the current cost; on a tie (or any
non-strict candidate) the existing entry, next hop included, is retained;
and the call returns True exactly when some entry was replaced. -/
theorem update_strict_improvement_only (n : Node) (nb : NodeId) (t : Table)
    (n' : Node) (b : Bool) (w : Nat)
    (hw : dget n.neighbors nb = some w) (hnd : (t.map Prod.fst).Nodup)
    (h : n.update_routing_table nb t = some (n', b)) :
    (∀ d qe, dget t d = some qe → ¬ d = n.name →
      (bltC (addC w qe.1) (tcost n.routing_table d) = true →
        dget n'.routing_table d = some (addC w qe.1, some nb)) ∧
      (bltC (addC w qe.1) (tcost n.routing_table d) = false →
        dget n'.routing_table d = dget n.routing_table d)) ∧
    (∀ d, dget n'.routing_table d ≠ dget n.routing_table d →
      ∃ qe, dget t d = some qe ∧ ¬ d = n.name ∧
        bltC (addC w qe.1) (tcost n.routing_table d) = true) ∧
    (b = true ↔ ∃ d, dget n'.routing_table d ≠ dget n.routing_table d) := by
  obtain ⟨w2, hw2, hname, hnbr, htbl, hbflag⟩ := update_inv h
  have hww : w2 = w := by
    rw [hw] at hw2
    simpa using hw2.symm
  subst hww
  refine ⟨?_, ?_, ?_⟩
  · intro d qe hqe hdnm
    constructor
    · intro hblt
      rw [htbl,
        relaxFold_dget_present n.name nb w2 t hnd n.routing_table d qe hqe hdnm,
        if_pos hblt]
    · intro hblt
      rw [htbl,
        relaxFold_dget_present n.name nb w2 t hnd n.routing_table d qe hqe hdnm,
        if_neg (by simp [hblt])]
  · intro d hne
    cases hs : dget t d with
    | none =>
      exfalso
      apply hne
      rw [htbl]
      exact relaxFold_dget_absent n.name nb w2 t hnd n.routing_table d hs
    | some qe =>
      by_cases hdnm : d = n.name
      · exfalso
        apply hne
        rw [htbl, hdnm, relaxFold_self, ← hdnm]
      · by_cases hblt : bltC (addC w2 qe.1) (tcost n.routing_table d) = true
        · exact ⟨qe, rfl, hdnm, hblt⟩
        · exfalso
          apply hne
          rw [htbl,
            relaxFold_dget_present n.name nb w2 t hnd n.routing_table d qe hs hdnm,
            if_neg hblt]
  · constructor
    · intro hb
      have hany : t.any (improves n.name w2 n.routing_table) = true := by
        rw [← relaxFold_flag_iff n.name nb w2 t n.routing_table, ← hbflag]
        exact hb
      rw [List.any_eq_true] at hany
      obtain ⟨q, hq, himp⟩ := hany
      rw [improves] at himp
      by_cases hqnm : q.1 = n.name
      · rw [if_pos hqnm] at himp
        exact absurd himp (by simp)
      · rw [if_neg hqnm] at himp
        refine ⟨q.1, ?_⟩
        have hget : dget t q.1 = some q.2 :=
          dget_of_mem_nodup hnd (by cases q; exact hq)
        have hnew : dget n'.routing_table q.1 = some (addC w2 q.2.1, some nb) := by
          rw [htbl,
            relaxFold_dget_present n.name nb w2 t hnd n.routing_table q.1 q.2
              hget hqnm, if_pos himp]
        intro heq
        rw [heq] at hnew
        have : tcost n.routing_table q.1 = addC w2 q.2.1 := by
          unfold tcost
          rw [hnew]
          rfl
        rw [this, bltC_irrefl] at himp
        exact absurd himp (by simp)
    · intro hex
      cases b with
      | true => rfl
      | false =>
        obtain ⟨d, hd⟩ := hex
        have := update_false_eq h
        rw [this] at hd
        exact absurd rfl hd

/-- C6: calling update_routing_table with an identifier that is not a
neighbor fails (the dict access self.neighbors[neighbor] raises before the
loop runs), and the failing call leaves the routing table unchanged. -/
theorem update_unknown_neighbor_fails (n : Node) (nb : NodeId) (t : Table)
    (h : dget n.neighbors nb = none) :
    n.update_routing_table nb t = none ∧ applyUpd n nb t = n := by
  have h1 : n.update_routing_table nb t = none := by
    unfold Node.update_routing_table
    rw [h]
  refine ⟨h1, ?_⟩
  unfold applyUpd
  rw [h1]

/-- C7: send_routing_table returns a snapshot equal to the table's value at
export time, and a later mutation of the node's table (a changing
update_routing_table call) does not retroactively affect the snapshot: the
mutated table differs from the snapshot, which kept the export-time value. -/
theorem send_table_snapshot_independent (n : Node) (nb : NodeId) (t : Table)
    (n' : Node) (hnd : (t.map Prod.fst).Nodup)
    (h : n.update_routing_table nb t = some (n', true)) :
    n.send_routing_table = n.routing_table ∧
    n'.routing_table ≠ n.send_routing_table := by
  refine ⟨rfl, ?_⟩
  obtain ⟨d, hd⟩ := update_strict hnd h
  intro heq
  rw [show n.send_routing_table = n.routing_table from rfl] at heq
  rw [heq, bltC_irrefl] at hd
  exact absurd hd (by simp)

/-- C8: the round is idempotent at the fixpoint: if a full round changes no
node, then one more full round from that state also changes nothing, and
every update_routing_table call in it returns False. -/
theorem round_idempotent_at_fixpoint (net net' : Network)
    (h : net.round = some (net', false)) :
    net'.round = some (net', false) ∧
    ∀ p ∈ net'.nodes, ∀ q ∈ p.2.neighbors, ∃ t,
      dget net'.sent_tables q.1 = some t ∧
      p.2.update_routing_table q.1 t = some (p.2, false) := by
  have heq : net' = net := round_false_eq h
  subst heq
  exact ⟨h, round_fix_updates_false h⟩

/-- C9: on a network whose graph is disconnected the algorithm still
terminates, and for nodes A, B in different connected components (no walk of
finite cost joins them) the converged entry of A for B is (infinity, None). -/
theorem disconnected_unreachable_entry (net : Network) (A B : NodeId)
    (hWF : net.WF) (hA : A ∈ net.names) (hB : B ∈ net.names)
    (hnr : ¬ ∃ l, IsWalkFrom A B l ∧ (chainCost net.adjOf l).isSome) :
    (∃ fuel net', net.distance_vector_routing fuel = some net') ∧
    ∀ fuel net', net.distance_vector_routing fuel = some net' →
      dget (net'.tableOf A) B = some (none, none) := by
  constructor
  · have hadj := WF_AdjOk hWF
    obtain ⟨fuel, hsome⟩ :=
      dvrLoop_terminates hadj net.initialize_routing_tables (init_NetOk hWF)
    obtain ⟨net', hnet'⟩ := Option.isSome_iff_exists.mp hsome
    exact ⟨fuel, net', hnet'⟩
  · intro fuel net' hrun
    obtain ⟨hok, hfixr, hcost⟩ := dvr_final_facts hWF hrun
    have hd : distUpTo net.adjOf net.names.length A B = none := by
      cases hdd : distUpTo net.adjOf net.names.length A B with
      | none => rfl
      | some c =>
        obtain ⟨l, hw, hc⟩ := distUpTo_realize net.adjOf
          (fun k => (WF_AdjOk hWF k).1) net.names.length A B c hdd
        exact absurd ⟨l, hw, by rw [hc]; simp⟩ hnr
    have hcAB := hcost A hA B hB
    rw [hd] at hcAB
    obtain ⟨n, hn, hokn⟩ := node_of_name hok hA
    have hBk : (dget n.routing_table B).isSome := (hokn.2.2.2.1 B).mpr hB
    obtain ⟨e, he⟩ := Option.isSome_iff_exists.mp hBk
    obtain ⟨c, hh⟩ := e
    have hcnone : c = none := by
      rw [costAt_eq_tcost, tableOf_eq hn] at hcAB
      unfold tcost at hcAB
      rw [he] at hcAB
      simpa using hcAB
    subst hcnone
    have hhop := hokn.2.2.2.2.2 B (none, hh) he
    rw [EntryOk_none_fst] at hhop
    subst hhop
    rw [tableOf_eq hn]
    exact he

/-- C10: a successful update_routing_table call modifies only entries for
destinations present in the received table, every entry it does replace gets
the updating neighbor as its next hop (with a finite cost), and the node's
name and neighbor link set are unchanged. -/
theorem update_frame_conditions (n : Node) (nb : NodeId) (t : Table)
    (n' : Node) (b : Bool) (hnd : (t.map Prod.fst).Nodup)
    (h : n.update_routing_table nb t = some (n', b)) :
    (∀ d, dget t d = none → dget n'.routing_table d = dget n.routing_table d) ∧
    (∀ d, dget n'.routing_table d ≠ dget n.routing_table d →
      ∃ c, dget n'.routing_table d = some (some c, some nb)) ∧
    n'.name = n.name ∧ n'.neighbors = n.neighbors := by
  obtain ⟨w, hw, hname, hnbr, htbl, hbflag⟩ := update_inv h
  refine ⟨?_, ?_, hname, hnbr⟩
  · intro d hd
    rw [htbl]
    exact relaxFold_dget_absent n.name nb w t hnd n.routing_table d hd
  · intro d hne
    cases hs : dget t d with
    | none =>
      exfalso
      apply hne
      rw [htbl]
      exact relaxFold_dget_absent n.name nb w t hnd n.routing_table d hs
    | some qe =>
      by_cases hdnm : d = n.name
      · exfalso
        apply hne
        rw [htbl, hdnm, relaxFold_self, ← hdnm]
      · by_cases hblt : bltC (addC w qe.1) (tcost n.routing_table d) = true
        · cases hq1 : qe.1 with
          | none =>
            rw [hq1] at hblt
            simp [addC, bltC] at hblt
          | some c2 =>
            refine ⟨w + c2, ?_⟩
            rw [htbl,
              relaxFold_dget_present n.name nb w t hnd n.routing_table d qe hs hdnm,
              if_pos hblt, hq1]
            rfl
        · exfalso
          apply hne
          rw [htbl,
            relaxFold_dget_present n.name nb w t hnd n.routing_table d qe hs hdnm,
            if_neg hblt]

/-! ## Witnesses: the claim theorems applied to concrete data -/

/-- C1 witness: the example network of the program's main function, pair
(A, D). -/
theorem dvr_shortest_path_correct_witness :
    ∃ c h, dget (exFinal.tableOf "A") "D" = some (c, h) ∧
      c = distUpTo exNet.adjOf exNet.names.length "A" "D" ∧
      (∀ c0, c = some c0 → ¬ "D" = "A" → ∃ hb l, h = some hb ∧
        (dget (exNet.adjOf "A") hb).isSome ∧
        IsWalkFrom "A" "D" ("A" :: hb :: l) ∧
        chainCost exNet.adjOf ("A" :: hb :: l) = some c0) :=
  dvr_shortest_path_correct exNet "A" "D" (by unfold Network.WF; decide)
    (by unfold Network.Symm; decide) (by unfold Network.PosCosts; decide)
    (by decide) (by decide) 6 exFinal rfl

/-- C2 witness: the example network terminates. -/
theorem dvr_terminates_witness :
    ∃ fuel net', exNet.distance_vector_routing fuel = some net' ∧
      net'.round = some (net', false) ∧
      ∀ p ∈ net'.nodes, ∀ q ∈ p.2.neighbors, ∃ t,
        dget net'.sent_tables q.1 = some t ∧
        p.2.update_routing_table q.1 t = some (p.2, false) :=
  dvr_terminates exNet (by unfold Network.WF; decide)

/-- C4 witness: a concrete changing update and the converged round of the
example network. -/
theorem cost_monotone_nonincreasing_witness :
    (∀ d, dget exNode'.routing_table d = dget exNode.routing_table d ∨
      bltC (tcost exNode'.routing_table d) (tcost exNode.routing_table d) = true) ∧
    (∀ A d, cleC (exFinal.costAt A d) (exFinal.costAt A d) = true) :=
  cost_monotone_nonincreasing exNode "B" exTbl exNode' true exFinal exFinal false
    (by decide) rfl rfl

/-- C5 witness: the concrete update of node A by B's advertisement. -/
theorem update_strict_improvement_only_witness :
    (∀ d qe, dget exTbl d = some qe → ¬ d = exNode.name →
      (bltC (addC 1 qe.1) (tcost exNode.routing_table d) = true →
        dget exNode'.routing_table d = some (addC 1 qe.1, some "B")) ∧
      (bltC (addC 1 qe.1) (tcost exNode.routing_table d) = false →
        dget exNode'.routing_table d = dget exNode.routing_table d)) ∧
    (∀ d, dget exNode'.routing_table d ≠ dget exNode.routing_table d →
      ∃ qe, dget exTbl d = some qe ∧ ¬ d = exNode.name ∧
        bltC (addC 1 qe.1) (tcost exNode.routing_table d) = true) ∧
    (true = true ↔ ∃ d, dget exNode'.routing_table d ≠ dget exNode.routing_table d) :=
  update_strict_improvement_only exNode "B" exTbl exNode' true 1
    (by decide) (by decide) rfl

/-- C6 witness: Z is not a neighbor of the example node. -/
theorem update_unknown_neighbor_fails_witness :
    exNode.update_routing_table "Z" exTbl = none ∧
    applyUpd exNode "Z" exTbl = exNode :=
  update_unknown_neighbor_fails exNode "Z" exTbl (by decide)

/-- C7 witness: the concrete changing update of node A. -/
theorem send_table_snapshot_independent_witness :
    exNode.send_routing_table = exNode.routing_table ∧
    exNode'.routing_table ≠ exNode.send_routing_table :=
  send_table_snapshot_independent exNode "B" exTbl exNode' (by decide) rfl

/-- C8 witness: the converged example state is a fixpoint of the round. -/
theorem round_idempotent_at_fixpoint_witness :
    exFinal.round = some (exFinal, false) ∧
    ∀ p ∈ exFinal.nodes, ∀ q ∈ p.2.neighbors, ∃ t,
      dget exFinal.sent_tables q.1 = some t ∧
      p.2.update_routing_table q.1 t = some (p.2, false) :=
  round_idempotent_at_fixpoint exFinal exFinal rfl

/-- C9 witness: the two-component example network, pair (A, C). -/
theorem disconnected_unreachable_entry_witness :
    (∃ fuel net', exNet2.distance_vector_routing fuel = some net') ∧
    ∀ fuel net', exNet2.distance_vector_routing fuel = some net' →
      dget (net'.tableOf "A") "C" = some (none, none) :=
  disconnected_unreachable_entry exNet2 "A" "C" (by unfold Network.WF; decide)
    (by decide) (by decide)
    (by
      rintro ⟨l, ⟨hh, hl⟩, hs⟩
      obtain ⟨c, hc⟩ := Option.isSome_iff_exists.mp hs
      have hmem : "C" ∈ l := mem_of_getLast?_eq hl
      have hS : "C" ∈ ["A", "B"] :=
        chain_mem_closed exNet2.adjOf ["A", "B"] (by decide) l "A" c hh
          (by decide) hc "C" hmem
      simp at hS)

/-- C10 witness: the concrete update of node A by B's advertisement. -/
theorem update_frame_conditions_witness :
    (∀ d, dget exTbl d = none →
      dget exNode'.routing_table d = dget exNode.routing_table d) ∧
    (∀ d, dget exNode'.routing_table d ≠ dget exNode.routing_table d →
      ∃ c, dget exNode'.routing_table d = some (some c, some "B")) ∧
    exNode'.name = exNode.name ∧ exNode'.neighbors = exNode.neighbors :=
  update_frame_conditions exNode "B" exTbl exNode' true (by decide) rfl
